import Mathlib

/-!
# Verification of the `egui-data-table` core engine

A shallow embedding, in Lean 4, of the stateful core of the `egui-data-table`
repository: the TSV clipboard codec (`src/draw/tsv.rs`), and the view-cache /
selection / command-undo engine (`src/draw/state.rs`).

Machine integers (`usize`, `u32`) are modelled as `Nat`; none of the embedded
code paths can overflow their 64-bit counters on the inputs the theorems
quantify over, and no wrap-around arithmetic is used by the source.  Rust
`String` data is modelled as `List Char`; `Vec<T>` and `VecDeque<T>` as
`List`; `Range<u32>` spans as `Nat × Nat` pairs.  Rust indexing panics
(`v[i]` out of range) have no post-state; the embedding makes those reads
total with `getD` and a default, and the theorems either avoid those inputs
with explicit validity hypotheses or are unaffected by the defaulted value.
-/

namespace Tsv

/-- Escape of one character by `write_content` (src/draw/tsv.rs lines 21-28):
tab, newline, carriage return and backslash become two-character backslash
sequences, every other character is copied verbatim. -/
def escChar (c : Char) : List Char :=
  if c = '\t' then ['\\', 't']
  else if c = '\n' then ['\\', 'n']
  else if c = '\r' then ['\\', 'r']
  else if c = '\\' then ['\\', '\\']
  else [c]

/-- `write_content` (src/draw/tsv.rs lines 14-30): an empty item is replaced
by a single space, otherwise each character is escaped by `escChar`. -/
def writeContent (item : List Char) : List Char :=
  if item = [] then [' '] else item.flatMap escChar

/-- Rendering of one parsed row: cells written by `writeContent` and joined by
`write_tab` (a single tab). -/
def encodeRow (row : List (List Char)) : List Char :=
  List.intercalate ['\t'] (row.map writeContent)

/-- Re-encoding of a parsed table: rows joined by `write_newline` (a single
newline).  This is the writer of §4.4/§6 of the spec assembled from
`write_content` / `write_tab` / `write_newline`, exactly the layout
`try_dump_clipboard_content` produces for a dense table. -/
def encodeTsv (rows : List (List (List Char))) : List Char :=
  List.intercalate ['\n'] (rows.map encodeRow)

/-- `ParsedTsv` (src/draw/tsv.rs lines 36-46): the owned unescaped buffer,
the byte span of every cell, and the index into `cellSpans` where each row
starts. -/
@[ext]
structure ParsedTsv where
  data : List Char
  cellSpans : List (Nat × Nat)
  rowOffsets : List Nat
  deriving Repr, DecidableEq

/-- The in-loop state of `ParsedTsv::parse`: the partially built structure,
the `cell_start_char` marker and the `ParseState` (escaping or not). -/
@[ext]
structure ParseMachine where
  p : ParsedTsv
  cellStart : Nat
  escaping : Bool
  deriving Repr, DecidableEq

/-- The unescape table of the `ParseState::Escaping` arm of `ParsedTsv::parse`
(src/draw/tsv.rs lines 90-101): `t n r \` decode to the control character,
any other character keeps the backslash verbatim. -/
def unescChar (c : Char) : List Char :=
  if c = 't' then ['\t']
  else if c = 'n' then ['\n']
  else if c = 'r' then ['\r']
  else if c = '\\' then ['\\']
  else ['\\', c]

/-- One iteration of the character loop of `ParsedTsv::parse`
(src/draw/tsv.rs lines 68-106).  The Rust `match` over the character is
rendered as a chain of equality tests in source order; the `'\n' | '\t'`
arm first commits a cell span (always for a tab, only when non-empty for a
newline) and then, for a newline, records a row offset. -/
def parseStep (m : ParseMachine) (c : Char) : ParseMachine :=
  if m.escaping then
    { m with p := { m.p with data := m.p.data ++ unescChar c }, escaping := false }
  else if c = '\n' ∨ c = '\t' then
    let m1 :=
      if c = '\t' ∨ m.cellStart ≠ m.p.data.length then
        { m with
          p := { m.p with cellSpans := m.p.cellSpans ++ [(m.cellStart, m.p.data.length)] },
          cellStart := m.p.data.length }
      else m
    if c = '\n' then
      { m1 with p := { m1.p with rowOffsets := m1.p.rowOffsets ++ [m1.p.cellSpans.length] } }
    else m1
  else if c = '\r' then m
  else if c = '\\' then { m with escaping := true }
  else { m with p := { m.p with data := m.p.data ++ [c] } }

/-- The trailing-cell / trailing-row flush of `ParsedTsv::parse`
(src/draw/tsv.rs lines 108-117). -/
def parseFinish (m : ParseMachine) : ParsedTsv :=
  let p :=
    if m.cellStart ≠ m.p.data.length then
      { m.p with cellSpans := m.p.cellSpans ++ [(m.cellStart, m.p.data.length)] }
    else m.p
  if p.rowOffsets.getLastD 0 ≠ p.cellSpans.length then
    { p with rowOffsets := p.rowOffsets ++ [p.cellSpans.length] }
  else p

/-- `ParsedTsv::parse` (src/draw/tsv.rs lines 49-125): run the character loop
from the initial state (`row_offsets` seeded with 0) and flush. -/
def ParsedTsv.parse (input : List Char) : ParsedTsv :=
  parseFinish (input.foldl parseStep
    { p := { data := [], cellSpans := [], rowOffsets := [0] }, cellStart := 0, escaping := false })

/-- Slice of the data buffer described by one span (`&self.data[start..end]`). -/
def spanSlice (data : List Char) (s : Nat × Nat) : List Char :=
  (data.drop s.1).take (s.2 - s.1)

/-- `ParsedTsv::num_rows` (src/draw/tsv.rs lines 147-149). -/
def ParsedTsv.numRows (p : ParsedTsv) : Nat :=
  p.rowOffsets.length - 1

/-- `ParsedTsv::num_columns_at` (src/draw/tsv.rs lines 136-145): width of one
row, 0 when the row index is out of range. -/
def ParsedTsv.numColumnsAt (p : ParsedTsv) (row : Nat) : Nat :=
  if p.rowOffsets.length - 1 ≤ row then 0
  else p.rowOffsets.getD (row + 1) 0 - p.rowOffsets.getD row 0

/-- `ParsedTsv::get_cell` (src/draw/tsv.rs lines 151-156): resolve the row's
offset into `cellSpans`, add the column, and slice the data buffer.  Note the
source checks the resulting index only against the end of `cell_spans`, not
against the end of the addressed row. -/
def ParsedTsv.getCell (p : ParsedTsv) (row column : Nat) : Option (List Char) :=
  match p.rowOffsets.get? row with
  | none => none
  | some rowOffset =>
    match p.cellSpans.get? (rowOffset + column) with
    | none => none
    | some span => some (spanSlice p.data span)

/-- The nested-list reading of a `ParsedTsv`, row by row, exactly as
`ParsedTsv::iter_rows` (src/draw/tsv.rs lines 159-175) walks it: adjacent
`rowOffsets` pairs delimit each row's cells. -/
def cellsOf (p : ParsedTsv) : List (List (List Char)) :=
  (p.rowOffsets.zip p.rowOffsets.tail).map
    (fun w => (List.range' w.1 (w.2 - w.1)).map
      (fun k => spanSlice p.data (p.cellSpans.getD k (0, 0))))

/-- Accumulator view of the parse loop: the escape flag, the unescaped
current cell, the cells of the current row, and the completed rows.  The span
machine of `ParsedTsv::parse` is proved equivalent to this view
(`cellsOf_parse`). -/
@[ext]
structure RefAcc where
  escaping : Bool
  cell : List Char
  row : List (List Char)
  rows : List (List (List Char))
  deriving Repr, DecidableEq

/-- One character of the parse loop on the accumulator view.  A tab commits
the current cell unconditionally; a newline commits it only when non-empty
and then closes the row (even an empty row); a carriage return outside an
escape is dropped. -/
def refStep (a : RefAcc) (c : Char) : RefAcc :=
  if a.escaping then { a with cell := a.cell ++ unescChar c, escaping := false }
  else if c = '\t' then { a with cell := [], row := a.row ++ [a.cell] }
  else if c = '\n' then
    let row2 := a.row ++ (if a.cell = [] then [] else [a.cell])
    { a with cell := [], row := [], rows := a.rows ++ [row2] }
  else if c = '\r' then a
  else if c = '\\' then { a with escaping := true }
  else { a with cell := a.cell ++ [c] }

/-- The final flush on the accumulator view: a non-empty trailing cell is
committed, and the trailing row is committed iff it then has any cell. -/
def refFinish (a : RefAcc) : List (List (List Char)) :=
  let row2 := a.row ++ (if a.cell = [] then [] else [a.cell])
  a.rows ++ (if row2 = [] then [] else [row2])

/-- The accumulator-view parser. -/
def refParse (input : List Char) : List (List (List Char)) :=
  refFinish (input.foldl refStep { escaping := false, cell := [], row := [], rows := [] })

/-- All committed cells, in order: cells of completed rows then the current
row's cells. -/
def cellsAcc (a : RefAcc) : List (List Char) :=
  a.rows.flatten ++ a.row

/-- The spans that the machine records for a given list of completed cells:
consecutive, tiling the data buffer from offset `n`. -/
def spansFrom (n : Nat) : List (List Char) → List (Nat × Nat)
  | [] => []
  | c :: cs => (n, n + c.length) :: spansFrom (n + c.length) cs

/-- The row offsets the machine records: cumulative committed-cell counts
starting at `n`, one entry per completed row plus the seed entry. -/
def offsFrom (n : Nat) : List (List (List Char)) → List Nat
  | [] => [n]
  | r :: rs => n :: offsFrom (n + r.length) rs

/-- Total number of cells in a list of rows. -/
def totalCells (rows : List (List (List Char))) : Nat :=
  rows.flatten.length

/-- `t` has no carriage return character. -/
def noCR (t : List Char) : Bool := t.all (· ≠ '\r')

/-- `t` has no control character (ASCII below 32): the hypothesis of the
claim as frozen. -/
def noControlChars (t : List Char) : Bool := t.all (fun c => 32 ≤ c.toNat)

/-- Every backslash of `t` begins one of the four valid escape pairs. -/
def wellEscaped : List Char → Bool
  | [] => true
  | c :: rest =>
    if c = '\\' then
      match rest with
      | [] => false
      | d :: rest2 => (d = 't' || d = 'n' || d = 'r' || d = '\\') && wellEscaped rest2
    else wellEscaped rest

/-- `t` has no trailing tab or newline and no tab directly before a newline
(such separators delimit a trailing empty cell or row that the parser does
not commit). -/
def noDanglingSep : List Char → Bool
  | [] => true
  | c :: rest =>
    if c = '\t' then
      if rest = [] then false
      else if rest.headD ' ' = '\n' then false
      else noDanglingSep rest
    else if c = '\n' then
      if rest = [] then false
      else noDanglingSep rest
    else noDanglingSep rest

/-- The space-for-empty-cell substitution on raw TSV text: a tab standing at
a cell-start position delimits an empty cell, which the writer renders as a
single space.  Escape pairs are copied opaquely. -/
def substGo (atStart : Bool) : List Char → List Char
  | [] => []
  | c :: rest =>
    if c = '\t' then (if atStart then [' ', '\t'] else ['\t']) ++ substGo true rest
    else if c = '\n' then '\n' :: substGo true rest
    else if c = '\\' then
      match rest with
      | [] => ['\\']
      | d :: rest2 => '\\' :: d :: substGo false rest2
    else c :: substGo false rest

/-- `t` with every empty cell replaced by a single space. -/
def substEmptyCells (t : List Char) : List Char := substGo true t

/-- Text already emitted for a partially consumed input: completed rows each
followed by the consumed newline, committed cells of the current row each
followed by the consumed tab, and the re-escaped current cell. -/
def partialEnc (a : RefAcc) : List Char :=
  a.rows.flatMap (fun r => encodeRow r ++ ['\n']) ++
  a.row.flatMap (fun c => writeContent c ++ ['\t']) ++
  a.cell.flatMap escChar

/-! ### Equivalence of the span machine with the accumulator view -/

/-- The machine state that corresponds to an accumulator state: the data
buffer is the concatenation of all committed cells followed by the current
cell, `cell_start_char` marks the end of the committed part, the spans tile
the committed part, and the row offsets are the cumulative cell counts of
the completed rows. -/
def mach (a : RefAcc) : ParseMachine :=
  { p := { data := (cellsAcc a).flatten ++ a.cell,
           cellSpans := spansFrom 0 (cellsAcc a),
           rowOffsets := offsFrom 0 a.rows },
    cellStart := (cellsAcc a).flatten.length,
    escaping := a.escaping }

lemma totalCells_cons (x : List (List Char)) (xs : List (List (List Char))) :
    totalCells (x :: xs) = x.length + totalCells xs := by
  simp [totalCells]

lemma spansFrom_append_one (xs : List (List Char)) (c : List Char) (n : Nat) :
    spansFrom n (xs ++ [c]) =
      spansFrom n xs ++ [(n + xs.flatten.length, n + xs.flatten.length + c.length)] := by
  induction xs generalizing n with
  | nil => simp [spansFrom]
  | cons x xs ih =>
    show (n, n + x.length) :: spansFrom (n + x.length) (xs ++ [c]) = _
    rw [ih]
    simp [spansFrom, Nat.add_assoc]

lemma offsFrom_append_one (rows : List (List (List Char))) (r : List (List Char)) (n : Nat) :
    offsFrom n (rows ++ [r]) = offsFrom n rows ++ [n + totalCells rows + r.length] := by
  induction rows generalizing n with
  | nil => simp [offsFrom, totalCells]
  | cons x xs ih =>
    show n :: offsFrom (n + x.length) (xs ++ [r]) = _
    rw [ih]
    show _ = n :: (offsFrom (n + x.length) xs ++ [_])
    rw [totalCells_cons, ← Nat.add_assoc]

lemma spansFrom_length (cs : List (List Char)) (n : Nat) :
    (spansFrom n cs).length = cs.length := by
  induction cs generalizing n with
  | nil => rfl
  | cons c cs ih => simp [spansFrom, ih]

lemma offsFrom_getLastD (rows : List (List (List Char))) (n d : Nat) :
    (offsFrom n rows).getLastD d = n + totalCells rows := by
  induction rows generalizing n d with
  | nil => simp [offsFrom, totalCells]
  | cons x xs ih =>
    show (List.getLastD (n :: offsFrom (n + x.length) xs) d) = _
    rw [List.getLastD_cons, ih, totalCells_cons]
    omega

lemma parseStep_esc (m : ParseMachine) (c : Char) (h : m.escaping = true) :
    parseStep m c = { m with p := { m.p with data := m.p.data ++ unescChar c },
                             escaping := false } := by
  simp [parseStep, h]

lemma parseStep_tab (m : ParseMachine) (h : m.escaping = false) :
    parseStep m '\t' =
      { m with
        p := { m.p with cellSpans := m.p.cellSpans ++ [(m.cellStart, m.p.data.length)] },
        cellStart := m.p.data.length } := by
  simp [parseStep, h]

lemma parseStep_newline_keep (m : ParseMachine) (h : m.escaping = false)
    (hlen : m.cellStart = m.p.data.length) :
    parseStep m '\n' =
      { m with p := { m.p with rowOffsets := m.p.rowOffsets ++ [m.p.cellSpans.length] } } := by
  simp [parseStep, h, hlen]

lemma parseStep_newline_push (m : ParseMachine) (h : m.escaping = false)
    (hlen : m.cellStart ≠ m.p.data.length) :
    parseStep m '\n' =
      { m with
        p := { m.p with
               cellSpans := m.p.cellSpans ++ [(m.cellStart, m.p.data.length)],
               rowOffsets := m.p.rowOffsets ++ [m.p.cellSpans.length + 1] },
        cellStart := m.p.data.length } := by
  simp [parseStep, h, hlen]

lemma parseStep_cr (m : ParseMachine) (h : m.escaping = false) :
    parseStep m '\r' = m := by
  simp [parseStep, h]

lemma parseStep_backslash (m : ParseMachine) (h : m.escaping = false) :
    parseStep m '\\' = { m with escaping := true } := by
  simp [parseStep, h]

lemma parseStep_other (m : ParseMachine) (c : Char) (h : m.escaping = false)
    (ht : c ≠ '\t') (hn : c ≠ '\n') (hr : c ≠ '\r') (hb : c ≠ '\\') :
    parseStep m c = { m with p := { m.p with data := m.p.data ++ [c] } } := by
  simp [parseStep, h, ht, hn, hr, hb]

lemma cellsAcc_flatten_append (a : RefAcc) :
    (cellsAcc a ++ [a.cell]).flatten = (cellsAcc a).flatten ++ a.cell := by
  simp

/-- `refStep` on a newline, written with the committed row spelled out. -/
lemma refStep_newline (a : RefAcc) (h : a.escaping = false) :
    refStep a '\n' =
      { a with cell := [], row := [],
               rows := a.rows ++ [a.row ++ (if a.cell = [] then [] else [a.cell])] } := by
  simp [refStep, h]

/-- Committing the current cell extends the span list by one span covering
the current cell's characters. -/
lemma spansFrom_push (a : RefAcc) :
    spansFrom 0 (a.rows.flatten ++ (a.row ++ [a.cell])) =
      spansFrom 0 (a.rows.flatten ++ a.row) ++
        [((a.rows.flatten ++ a.row).flatten.length,
          (a.rows.flatten ++ a.row).flatten.length + a.cell.length)] := by
  rw [← List.append_assoc, spansFrom_append_one]
  simp

/-- Closing a row extends the offset list by the new total cell count. -/
lemma offsFrom_push (rows : List (List (List Char))) (r : List (List Char)) :
    offsFrom 0 (rows ++ [r]) = offsFrom 0 rows ++ [totalCells rows + r.length] := by
  rw [offsFrom_append_one]
  simp

/-- One machine step tracks one accumulator step. -/
lemma parseStep_mach (a : RefAcc) (c : Char) :
    parseStep (mach a) c = mach (refStep a c) := by
  by_cases hesc : a.escaping
  · rw [parseStep_esc _ _ hesc]
    apply ParseMachine.ext
    · apply ParsedTsv.ext <;> simp [refStep, mach, hesc, cellsAcc, List.append_assoc]
    · simp [refStep, mach, hesc, cellsAcc]
    · simp [refStep, mach, hesc]
  · have hesc0 : a.escaping = false := by simpa using hesc
    have hesc' : (mach a).escaping = false := hesc0
    by_cases ht : c = '\t'
    · subst ht
      rw [parseStep_tab _ hesc']
      have hstep : refStep a '\t' = { a with cell := [], row := a.row ++ [a.cell] } := by
        simp [refStep, hesc0]
      rw [hstep]
      apply ParseMachine.ext
      · apply ParsedTsv.ext
        · simp [mach, cellsAcc, List.append_assoc]
        · simp [mach, cellsAcc, spansFrom_push]
          omega
        · simp [mach, cellsAcc]
      · simp [mach, cellsAcc]
      · simp [mach, hesc0]
    · by_cases hn : c = '\n'
      · subst hn
        rw [refStep_newline a hesc0]
        by_cases hce : a.cell = []
        · have hlen : (mach a).cellStart = (mach a).p.data.length := by
            simp [mach, hce]
          rw [parseStep_newline_keep _ hesc' hlen]
          apply ParseMachine.ext
          · apply ParsedTsv.ext
            · simp [mach, cellsAcc, hce]
            · simp [mach, cellsAcc, hce]
            · simp [mach, cellsAcc, hce, offsFrom_push, spansFrom_length, totalCells]
          · simp [mach, cellsAcc, hce]
          · simp [mach, hesc0]
        · have hlen : (mach a).cellStart ≠ (mach a).p.data.length := by
            simp only [mach, List.length_append]
            intro hbad
            exact hce (List.eq_nil_of_length_eq_zero (by omega))
          rw [parseStep_newline_push _ hesc' hlen]
          apply ParseMachine.ext
          · apply ParsedTsv.ext
            · simp [mach, cellsAcc, hce, List.append_assoc]
            · simp [mach, cellsAcc, hce, spansFrom_push, List.append_assoc]
              omega
            · simp [mach, cellsAcc, hce, offsFrom_push, spansFrom_length, totalCells,
                List.append_assoc]
              omega
          · simp [mach, cellsAcc, hce, List.append_assoc]
          · simp [mach, hesc0]
      · by_cases hr : c = '\r'
        · subst hr
          rw [parseStep_cr _ hesc']
          have hstep : refStep a '\r' = a := by simp [refStep, hesc0]
          rw [hstep]
        · by_cases hb : c = '\\'
          · subst hb
            rw [parseStep_backslash _ hesc']
            have hstep : refStep a '\\' = { a with escaping := true } := by
              simp [refStep, hesc0]
            rw [hstep]
            apply ParseMachine.ext
            · apply ParsedTsv.ext <;> simp [mach, cellsAcc]
            · simp [mach, cellsAcc]
            · simp [mach]
          · rw [parseStep_other _ c hesc' ht hn hr hb]
            have hstep : refStep a c = { a with cell := a.cell ++ [c] } := by
              simp [refStep, hesc0, ht, hn, hr, hb]
            rw [hstep]
            apply ParseMachine.ext
            · apply ParsedTsv.ext <;> simp [mach, cellsAcc, List.append_assoc]
            · simp [mach, cellsAcc]
            · simp [mach, hesc0]

lemma foldl_parseStep_mach (t : List Char) (a : RefAcc) :
    t.foldl parseStep (mach a) = mach (t.foldl refStep a) := by
  induction t generalizing a with
  | nil => rfl
  | cons c rest ih =>
    show rest.foldl parseStep (parseStep (mach a) c) = _
    rw [parseStep_mach, ih]
    rfl

/-! ### Reading the cells back out of the span representation -/

lemma spanSlice_concat (pre c suf : List Char) :
    spanSlice (pre ++ (c ++ suf)) (pre.length, pre.length + c.length) = c := by
  show ((pre ++ (c ++ suf)).drop pre.length).take (pre.length + c.length - pre.length) = c
  rw [List.drop_left, Nat.add_sub_cancel_left, List.take_left]

lemma spansFrom_lookup (cs : List (List Char)) :
    ∀ (pre : List Char) (k : Nat) (c : List Char), cs[k]? = some c →
      spanSlice (pre ++ cs.flatten) ((spansFrom pre.length cs).getD k (0, 0)) = c := by
  induction cs with
  | nil => intro pre k c h; simp at h
  | cons c0 cs ih =>
    intro pre k c h
    match k with
    | 0 =>
      have hc : c0 = c := by simpa using h
      subst hc
      show spanSlice (pre ++ (c0 :: cs).flatten) (pre.length, pre.length + c0.length) = c0
      rw [List.flatten_cons]
      exact spanSlice_concat pre c0 cs.flatten
    | k + 1 =>
      have h' : cs[k]? = some c := by simpa using h
      have hstep := ih (pre ++ c0) k c h'
      rw [List.length_append] at hstep
      show spanSlice (pre ++ (c0 :: cs).flatten)
        ((spansFrom (pre.length + c0.length) cs).getD k (0, 0)) = c
      rw [List.flatten_cons, ← List.append_assoc]
      exact hstep

/-- Lookup of the `k`-th committed cell from the tiled spans. -/
lemma cellLookup (allCells : List (List Char)) (k : Nat) (c : List Char)
    (h : allCells[k]? = some c) :
    spanSlice allCells.flatten ((spansFrom 0 allCells).getD k (0, 0)) = c := by
  have hstep := spansFrom_lookup allCells [] k c h
  simpa using hstep

lemma range'_map_getD (row : List (List Char)) (f : Nat → List Char) :
    ∀ s : Nat, (∀ j, j < row.length → f (s + j) = row.getD j []) →
      (List.range' s row.length).map f = row := by
  induction row with
  | nil => intro s _; rfl
  | cons r rs ih =>
    intro s h
    show f s :: (List.range' (s + 1) rs.length).map f = r :: rs
    have h0 : f s = r := by
      have hr := h 0 (by simp)
      simpa using hr
    rw [h0, ih (s + 1) (fun j hj => by
      have hr := h (j + 1) (by simp [Nat.succ_lt_succ hj])
      have harith : s + (j + 1) = s + 1 + j := by omega
      rw [harith] at hr
      simpa using hr)]

lemma offsFrom_shape (k : Nat) (rows : List (List (List Char))) :
    ∃ T, offsFrom k rows = k :: T := by
  cases rows <;> exact ⟨_, rfl⟩

/-- Reading every row back from the canonical span representation returns the
rows: core of the correspondence between `cellsOf` and the accumulator
parser. -/
lemma rowsExtract (rows : List (List (List Char))) :
    ∀ (preCells : List (List Char)),
      ((offsFrom preCells.length rows).zip (offsFrom preCells.length rows).tail).map
        (fun w => (List.range' w.1 (w.2 - w.1)).map
          (fun k => spanSlice (preCells ++ rows.flatten).flatten
            ((spansFrom 0 (preCells ++ rows.flatten)).getD k (0, 0)))) = rows := by
  induction rows with
  | nil => intro preCells; rfl
  | cons r rs ih =>
    intro preCells
    obtain ⟨T, hT⟩ := offsFrom_shape (preCells.length + r.length) rs
    have hcons : offsFrom preCells.length (r :: rs) =
        preCells.length :: offsFrom (preCells.length + r.length) rs := rfl
    rw [hcons, hT]
    simp only [List.tail_cons, List.zip_cons_cons, List.map_cons, List.flatten_cons]
    rw [List.cons.injEq]
    constructor
    · rw [Nat.add_sub_cancel_left]
      apply range'_map_getD
      intro j hj
      apply cellLookup
      rw [List.getElem?_append_right (by omega)]
      have h2 : preCells.length + j - preCells.length = j := by omega
      rw [h2, List.getElem?_append_left hj, List.getElem?_eq_getElem hj]
      simp [List.getD_eq_getElem?_getD, List.getElem?_eq_getElem hj]
    · have htail := ih (preCells ++ r)
      rw [List.length_append, hT] at htail
      simp only [List.tail_cons, List.append_assoc] at htail
      exact htail

/-- `cellsOf` of the canonical span representation of a list of rows is just
that list of rows. -/
lemma cellsOf_canonical (rowsF : List (List (List Char))) :
    cellsOf { data := rowsF.flatten.flatten, cellSpans := spansFrom 0 rowsF.flatten,
              rowOffsets := offsFrom 0 rowsF } = rowsF := by
  have h := rowsExtract rowsF []
  simpa [cellsOf] using h

/-- The final flush of the machine realises `refFinish` on the cells. -/
lemma parseFinish_mach (a : RefAcc) :
    cellsOf (parseFinish (mach a)) = refFinish a := by
  have hoff := offsFrom_getLastD a.rows 0 0
  have hsl := spansFrom_length (cellsAcc a) 0
  have hca : (cellsAcc a).length = totalCells a.rows + a.row.length := by
    simp [cellsAcc, totalCells]
  by_cases hce : a.cell = []
  · have hlen : ¬ ((mach a).cellStart ≠ (mach a).p.data.length) := by
      simp [mach, hce]
    by_cases hrow : a.row = []
    · -- nothing to flush: the structure is already canonical for `a.rows`
      have hlast : ¬ ((mach a).p.rowOffsets.getLastD 0 ≠ (mach a).p.cellSpans.length) := by
        show ¬ ((offsFrom 0 a.rows).getLastD 0 ≠ (spansFrom 0 (cellsAcc a)).length)
        rw [hoff, hsl, hca, hrow]
        simp
      have hfin : parseFinish (mach a) = (mach a).p := by
        rw [parseFinish]
        simp only [hlen, ite_false, ite_true, if_neg hlast, if_pos]
      rw [hfin]
      have hmp : (mach a).p = { data := a.rows.flatten.flatten,
                                cellSpans := spansFrom 0 a.rows.flatten,
                                rowOffsets := offsFrom 0 a.rows } := by
        apply ParsedTsv.ext <;> simp [mach, cellsAcc, hce, hrow]
      rw [hmp, cellsOf_canonical]
      simp [refFinish, hce, hrow]
    · -- the trailing row (with no trailing cell) is committed
      have hrl : 0 < a.row.length := List.length_pos.mpr hrow
      have hlast : (mach a).p.rowOffsets.getLastD 0 ≠ (mach a).p.cellSpans.length := by
        show (offsFrom 0 a.rows).getLastD 0 ≠ (spansFrom 0 (cellsAcc a)).length
        rw [hoff, hsl, hca]
        omega
      have hfin : parseFinish (mach a) =
          { (mach a).p with rowOffsets := (mach a).p.rowOffsets ++
                              [(mach a).p.cellSpans.length] } := by
        rw [parseFinish]
        simp only [hlen, ite_false, ite_true, if_pos hlast, if_neg]
      rw [hfin]
      have hmp : { (mach a).p with rowOffsets := (mach a).p.rowOffsets ++
                      [(mach a).p.cellSpans.length] } =
          { data := (a.rows ++ [a.row]).flatten.flatten,
            cellSpans := spansFrom 0 (a.rows ++ [a.row]).flatten,
            rowOffsets := offsFrom 0 (a.rows ++ [a.row]) } := by
        apply ParsedTsv.ext
        · simp [mach, cellsAcc, hce]
        · simp [mach, cellsAcc, hce]
        · show offsFrom 0 a.rows ++ [(spansFrom 0 (cellsAcc a)).length] = _
          rw [hsl, hca, offsFrom_push]
      rw [hmp, cellsOf_canonical]
      simp [refFinish, hce, hrow]
  · -- the trailing cell is committed, then the trailing row
    have hcl : 0 < a.cell.length := List.length_pos.mpr hce
    have hlen : (mach a).cellStart ≠ (mach a).p.data.length := by
      simp only [mach, List.length_append]
      omega
    have hfin : parseFinish (mach a) =
        { data := (a.rows ++ [a.row ++ [a.cell]]).flatten.flatten,
          cellSpans := spansFrom 0 (a.rows ++ [a.row ++ [a.cell]]).flatten,
          rowOffsets := offsFrom 0 (a.rows ++ [a.row ++ [a.cell]]) } := by
      rw [parseFinish]
      simp only [if_pos hlen]
      have hlast : ((mach a).p.rowOffsets).getLastD 0 ≠ ((mach a).p.cellSpans ++
          [((mach a).cellStart, (mach a).p.data.length)]).length := by
        show (offsFrom 0 a.rows).getLastD 0 ≠
          (spansFrom 0 (cellsAcc a) ++ [((mach a).cellStart, (mach a).p.data.length)]).length
        rw [hoff, List.length_append, hsl, hca]
        simp only [List.length_cons, List.length_nil]
        omega
      rw [if_pos hlast]
      apply ParsedTsv.ext
      · simp [mach, cellsAcc, List.append_assoc]
      · show spansFrom 0 (cellsAcc a) ++
            [((cellsAcc a).flatten.length, ((cellsAcc a).flatten ++ a.cell).length)] = _
        simp [cellsAcc, spansFrom_push, List.append_assoc]
        omega
      · show offsFrom 0 a.rows ++
            [(spansFrom 0 (cellsAcc a) ++ [((mach a).cellStart, (mach a).p.data.length)]).length] = _
        rw [List.length_append, hsl, hca, offsFrom_push]
        simp only [List.length_cons, List.length_nil, List.length_append]
        rw [Nat.add_assoc]
    rw [hfin, cellsOf_canonical]
    simp [refFinish, hce]

/-- The cells of `ParsedTsv::parse` are exactly what the accumulator parser
computes: the span bookkeeping of the source is faithful to the direct
cell-list reading. -/
theorem cellsOf_parse (t : List Char) : cellsOf (ParsedTsv.parse t) = refParse t := by
  have h0 : ({ p := { data := [], cellSpans := [], rowOffsets := [0] },
               cellStart := 0, escaping := false } : ParseMachine) =
      mach { escaping := false, cell := [], row := [], rows := [] } := rfl
  rw [ParsedTsv.parse, h0, foldl_parseStep_mach]
  exact parseFinish_mach _

/-! ### Round trip: re-encoding the parse -/

lemma intercalate_cons_of_ne_nil (sep x : List Char) (l : List (List Char)) (h : l ≠ []) :
    List.intercalate sep (x :: l) = x ++ sep ++ List.intercalate sep l := by
  match l with
  | [] => exact absurd rfl h
  | y :: ys =>
    show (List.intersperse sep (x :: y :: ys)).flatten = _
    rw [List.intersperse_cons_cons]
    simp [List.intercalate, List.append_assoc]

lemma intercalate_snoc (sep : List Char) (xs : List (List Char)) (x : List Char) :
    List.intercalate sep (xs ++ [x]) = xs.flatMap (fun y => y ++ sep) ++ x := by
  induction xs with
  | nil => simp [List.intercalate]
  | cons y ys ih =>
    rw [List.cons_append, intercalate_cons_of_ne_nil sep y (ys ++ [x]) (by simp), ih]
    simp [List.append_assoc]

lemma encodeRow_snoc (row : List (List Char)) (c : List Char) :
    encodeRow (row ++ [c]) =
      row.flatMap (fun d => writeContent d ++ ['\t']) ++ writeContent c := by
  rw [encodeRow, List.map_append, List.map_singleton, intercalate_snoc, List.flatMap_map]

lemma encodeTsv_snoc (rows : List (List (List Char))) (r : List (List Char)) :
    encodeTsv (rows ++ [r]) =
      rows.flatMap (fun q => encodeRow q ++ ['\n']) ++ encodeRow r := by
  rw [encodeTsv, List.map_append, List.map_singleton, intercalate_snoc, List.flatMap_map]

/-- Where the writer of the final flush agrees with the partial encoding:
either a trailing cell is pending, or the trailing row is entirely empty. -/
lemma encode_refFinish (a : RefAcc)
    (h : a.cell ≠ [] ∨ (a.row = [] ∧ a.rows = [])) :
    encodeTsv (refFinish a) = partialEnc a := by
  by_cases hce : a.cell = []
  · obtain ⟨hrow, hrows⟩ := h.resolve_left (by simpa using hce)
    rw [refFinish]
    simp [hce, hrow, hrows, partialEnc, encodeTsv, List.intercalate]
  · have hfin : refFinish a = a.rows ++ [a.row ++ [a.cell]] := by
      rw [refFinish]
      simp [hce]
    rw [hfin, encodeTsv_snoc, encodeRow_snoc, partialEnc, writeContent, if_neg hce]
    simp [List.append_assoc]

lemma noDanglingSep_tab (rest : List Char) (h : noDanglingSep ('\t' :: rest) = true) :
    rest ≠ [] ∧ (∀ r', rest ≠ '\n' :: r') ∧ noDanglingSep rest = true := by
  rw [noDanglingSep] at h
  rw [if_pos rfl] at h
  match rest with
  | [] => rw [if_pos rfl] at h; exact absurd h (by simp)
  | d :: r2 =>
    rw [if_neg (by simp)] at h
    by_cases hd : d = '\n'
    · rw [if_pos (by simp [hd])] at h; exact absurd h (by simp)
    · rw [if_neg (by simp [hd])] at h
      exact ⟨by simp, fun r' hr' => hd (by injection hr'), h⟩

lemma noDanglingSep_nl (rest : List Char) (h : noDanglingSep ('\n' :: rest) = true) :
    rest ≠ [] ∧ noDanglingSep rest = true := by
  rw [noDanglingSep] at h
  rw [if_neg (by decide), if_pos rfl] at h
  match rest with
  | [] => rw [if_pos rfl] at h; exact absurd h (by simp)
  | d :: r2 =>
    rw [if_neg (by simp)] at h
    exact ⟨by simp, h⟩

lemma noDanglingSep_other (c : Char) (rest : List Char) (ht : c ≠ '\t') (hn : c ≠ '\n')
    (h : noDanglingSep (c :: rest) = true) : noDanglingSep rest = true := by
  rw [noDanglingSep, if_neg ht, if_neg hn] at h
  exact h

lemma wellEscaped_backslash (rest : List Char) (h : wellEscaped ('\\' :: rest) = true) :
    ∃ d rest2, rest = d :: rest2 ∧
      (d = 't' ∨ d = 'n' ∨ d = 'r' ∨ d = '\\') ∧ wellEscaped rest2 = true := by
  match rest with
  | [] => exact absurd h (by decide)
  | d :: r2 =>
    have h' : ((d = 't' || d = 'n' || d = 'r' || d = '\\') && wellEscaped r2) = true := h
    simp only [Bool.and_eq_true, Bool.or_eq_true, decide_eq_true_eq] at h'
    refine ⟨d, r2, rfl, ?_, h'.2⟩
    rcases h'.1 with ⟨⟨h1 | h1⟩ | h1⟩ | h1 <;> tauto

lemma wellEscaped_cons (c : Char) (rest : List Char) (hb : c ≠ '\\')
    (h : wellEscaped (c :: rest) = true) : wellEscaped rest = true := by
  rw [wellEscaped.eq_def] at h
  simp only [hb, ite_false] at h
  exact h

lemma substGo_nil (b : Bool) : substGo b [] = [] := by
  rw [substGo.eq_def]

lemma substGo_tab (b : Bool) (rest : List Char) :
    substGo b ('\t' :: rest) = (if b then [' ', '\t'] else ['\t']) ++ substGo true rest := by
  rw [substGo.eq_def]
  simp

lemma substGo_nl (b : Bool) (rest : List Char) :
    substGo b ('\n' :: rest) = '\n' :: substGo true rest := by
  rw [substGo.eq_def]
  simp

lemma substGo_backslash (b : Bool) (d : Char) (rest2 : List Char) :
    substGo b ('\\' :: d :: rest2) = '\\' :: d :: substGo false rest2 := by
  rw [substGo.eq_def]
  simp

lemma substGo_other (b : Bool) (c : Char) (rest : List Char) (ht : c ≠ '\t') (hn : c ≠ '\n')
    (hb : c ≠ '\\') : substGo b (c :: rest) = c :: substGo false rest := by
  rw [substGo.eq_def]
  simp [ht, hn, hb]

lemma refStep_tab (a : RefAcc) (h : a.escaping = false) :
    refStep a '\t' = { a with cell := [], row := a.row ++ [a.cell] } := by
  simp [refStep, h]

lemma refStep_cr (a : RefAcc) (h : a.escaping = false) : refStep a '\r' = a := by
  simp [refStep, h]

lemma refStep_backslash (a : RefAcc) (h : a.escaping = false) :
    refStep a '\\' = { a with escaping := true } := by
  simp [refStep, h]

lemma refStep_esc (a : RefAcc) (c : Char) (h : a.escaping = true) :
    refStep a c = { a with cell := a.cell ++ unescChar c, escaping := false } := by
  simp [refStep, h]

lemma refStep_other (a : RefAcc) (c : Char) (h : a.escaping = false) (ht : c ≠ '\t')
    (hn : c ≠ '\n') (hr : c ≠ '\r') (hb : c ≠ '\\') :
    refStep a c = { a with cell := a.cell ++ [c] } := by
  simp [refStep, h, ht, hn, hr, hb]

lemma partialEnc_tab (a : RefAcc) :
    partialEnc { a with cell := [], row := a.row ++ [a.cell] } =
      partialEnc a ++ (if a.cell.isEmpty then [' ', '\t'] else ['\t']) := by
  by_cases hce : a.cell = [] <;>
    simp [partialEnc, writeContent, hce, List.isEmpty_iff, List.append_assoc]

lemma partialEnc_nlStep (a : RefAcc) (h : a.cell = [] → a.row = []) :
    partialEnc { a with cell := [], row := [],
                        rows := a.rows ++ [a.row ++ (if a.cell = [] then [] else [a.cell])] } =
      partialEnc a ++ ['\n'] := by
  by_cases hce : a.cell = []
  · have hrow := h hce
    simp [partialEnc, hce, hrow, encodeRow, List.intercalate]
  · simp only [partialEnc, hce, ite_false, List.flatMap_append, List.flatMap_cons,
      List.flatMap_nil, List.append_nil]
    rw [encodeRow_snoc, writeContent, if_neg hce]
    simp [List.append_assoc]

lemma partialEnc_cellExtend (a : RefAcc) (u : Char) :
    partialEnc { a with cell := a.cell ++ [u] } = partialEnc a ++ escChar u := by
  simp [partialEnc, List.append_assoc]

lemma isEmpty_snoc (l : List Char) (u : Char) : (l ++ [u]).isEmpty = false := by
  simp [List.isEmpty_iff]

/-- The terminal case: at the end of the input, encoding the flushed table
emits no further text. -/
lemma encode_terminal (a : RefAcc)
    (h1 : a.cell = [] → (a.row ≠ [] ∨ a.rows ≠ []) → ([] : List Char) ≠ []) :
    encodeTsv (refFinish a) = partialEnc a ++ substGo (a.cell.isEmpty) [] := by
  have hfin : a.cell ≠ [] ∨ (a.row = [] ∧ a.rows = []) := by
    by_cases hce : a.cell = []
    · right
      by_cases hrow : a.row = []
      · by_cases hrows : a.rows = []
        · exact ⟨hrow, hrows⟩
        · exact absurd (h1 hce (Or.inr hrows)) (by simp)
      · exact absurd (h1 hce (Or.inl hrow)) (by simp)
    · exact Or.inl hce
  rw [encode_refFinish a hfin, substGo_nil, List.append_nil]

/-- Main induction: running the parser over the remaining text and encoding
the flushed table yields the already-emitted text followed by the
space-substituted remainder. -/
lemma encode_foldl_refStep :
    ∀ (n : Nat) (t : List Char) (a : RefAcc), t.length ≤ n →
      a.escaping = false →
      noCR t = true → wellEscaped t = true → noDanglingSep t = true →
      (a.cell = [] → (a.row ≠ [] ∨ a.rows ≠ []) → t ≠ []) →
      (a.cell = [] → a.row ≠ [] → ∀ rest, t ≠ '\n' :: rest) →
      encodeTsv (refFinish (t.foldl refStep a)) =
        partialEnc a ++ substGo (a.cell.isEmpty) t := by
  intro n
  induction n with
  | zero =>
    intro t a hlen hesc hcr hwe hnd h1 h2
    have ht : t = [] := List.length_eq_zero.mp (Nat.le_zero.mp hlen)
    subst ht
    exact encode_terminal a h1
  | succ n ih =>
    intro t a hlen hesc hcr hwe hnd h1 h2
    match t with
    | [] => exact encode_terminal a h1
    | c :: rest =>
      have hlen' : rest.length ≤ n := by
        simp only [List.length_cons] at hlen
        omega
      rw [noCR, List.all_cons, Bool.and_eq_true] at hcr
      obtain ⟨hcne', hcrr⟩ := hcr
      have hcne : c ≠ '\r' := by simpa using hcne'
      have hcrr' : noCR rest = true := hcrr
      show encodeTsv (refFinish (rest.foldl refStep (refStep a c))) = _
      by_cases htab : c = '\t'
      · subst htab
        obtain ⟨hr1, hr2, hr3⟩ := noDanglingSep_tab rest hnd
        rw [refStep_tab a hesc]
        rw [ih rest { a with cell := [], row := a.row ++ [a.cell] } hlen' hesc hcrr'
          (wellEscaped_cons _ _ (by decide) hwe) hr3 (fun _ _ => hr1) (fun _ _ r' => hr2 r')]
        rw [substGo_tab, partialEnc_tab]
        simp [List.append_assoc]
      · by_cases hnl : c = '\n'
        · subst hnl
          obtain ⟨hn1, hn2⟩ := noDanglingSep_nl rest hnd
          have hcr_row : a.cell = [] → a.row = [] := by
            intro hce
            by_contra hrow
            exact (h2 hce hrow rest) rfl
          rw [refStep_newline a hesc]
          rw [ih rest { a with cell := [], row := ([] : List (List Char)),
                                rows := a.rows ++
                                  [a.row ++ (if a.cell = [] then [] else [a.cell])] }
            hlen' hesc hcrr' (wellEscaped_cons _ _ (by decide) hwe) hn2
            (fun _ _ => hn1) (fun _ hrow => absurd rfl hrow)]
          rw [substGo_nl, partialEnc_nlStep a hcr_row]
          simp [List.append_assoc]
        · by_cases hbs : c = '\\'
          · subst hbs
            obtain ⟨d, rest2, hrest, hd, hwe2⟩ := wellEscaped_backslash rest hwe
            subst hrest
            have hlen2 : rest2.length ≤ n := by
              simp only [List.length_cons] at hlen
              omega
            have hnd2 : noDanglingSep rest2 = true := by
              have hstep1 := noDanglingSep_other '\\' (d :: rest2) (by decide) (by decide) hnd
              have hdt : d ≠ '\t' := by
                rcases hd with h | h | h | h <;> subst h <;> decide
              have hdn : d ≠ '\n' := by
                rcases hd with h | h | h | h <;> subst h <;> decide
              exact noDanglingSep_other d rest2 hdt hdn hstep1
            have hcr2 : noCR rest2 = true := by
              rw [noCR, List.all_cons, Bool.and_eq_true] at hcrr'
              exact hcrr'.2
            have hu : ∃ u, unescChar d = [u] ∧ escChar u = ['\\', d] := by
              rcases hd with h | h | h | h
              · subst h; exact ⟨'\t', by decide, by decide⟩
              · subst h; exact ⟨'\n', by decide, by decide⟩
              · subst h; exact ⟨'\r', by decide, by decide⟩
              · subst h; exact ⟨'\\', by decide, by decide⟩
            obtain ⟨u, hu1, hu2⟩ := hu
            have hstate : refStep (refStep a '\\') d = { a with cell := a.cell ++ [u] } := by
              rw [refStep_backslash a hesc, refStep_esc _ d rfl, hu1]
              apply RefAcc.ext <;> simp [hesc]
            show encodeTsv (refFinish (rest2.foldl refStep (refStep (refStep a '\\') d))) = _
            rw [hstate]
            rw [ih rest2 { a with cell := a.cell ++ [u] } hlen2 hesc hcr2 hwe2 hnd2
              (by intro hc; simp at hc) (by intro hc; simp at hc)]
            rw [partialEnc_cellExtend a u, hu2, substGo_backslash]
            simp [List.append_assoc, isEmpty_snoc]
          · rw [refStep_other a c hesc htab hnl hcne hbs]
            have hnd' : noDanglingSep rest = true := noDanglingSep_other c rest htab hnl hnd
            rw [ih rest { a with cell := a.cell ++ [c] } hlen' hesc hcrr'
              (wellEscaped_cons _ _ hbs hwe) hnd'
              (by intro hc; simp at hc) (by intro hc; simp at hc)]
            rw [partialEnc_cellExtend a c, substGo_other _ c rest htab hnl hbs]
            have hesc_c : escChar c = [c] := by
              simp [escChar, htab, hnl, hcne, hbs]
            rw [hesc_c]
            simp [List.append_assoc, isEmpty_snoc]

lemma parseStep_keeps_not_escaping (m : ParseMachine) (c : Char) (h : m.escaping = false)
    (hb : c ≠ '\\') : (parseStep m c).escaping = false := by
  by_cases ht : c = '\t'
  · subst ht; rw [parseStep_tab m h]; exact h
  · by_cases hn : c = '\n'
    · subst hn
      by_cases hl : m.cellStart = m.p.data.length
      · rw [parseStep_newline_keep m h hl]; exact h
      · rw [parseStep_newline_push m h hl]; exact h
    · by_cases hr : c = '\r'
      · subst hr; rw [parseStep_cr m h]; exact h
      · rw [parseStep_other m c h ht hn hr hb]; exact h

/-- Outside escape sequences (in particular when no backslash occurs at all),
carriage returns are ignored by the parse loop. -/
lemma foldl_parseStep_drop_cr :
    ∀ (t : List Char) (m : ParseMachine), m.escaping = false → (∀ c ∈ t, c ≠ '\\') →
      t.foldl parseStep m = (t.filter (· ≠ '\r')).foldl parseStep m := by
  intro t
  induction t with
  | nil => intro m _ _; rfl
  | cons c rest ih =>
    intro m hm hb
    have hbc : c ≠ '\\' := hb c (by simp)
    have hbr : ∀ x ∈ rest, x ≠ '\\' := fun x hx => hb x (by simp [hx])
    by_cases hcr : c = '\r'
    · subst hcr
      show rest.foldl parseStep (parseStep m '\r') = _
      rw [parseStep_cr m hm]
      have hfe : ('\r' :: rest).filter (· ≠ '\r') = rest.filter (· ≠ '\r') := by
        simp [List.filter_cons]
      rw [hfe]
      exact ih m hm hbr
    · have hfe : (c :: rest).filter (· ≠ '\r') = c :: rest.filter (· ≠ '\r') := by
        simp [List.filter_cons, hcr]
      rw [hfe]
      show rest.foldl parseStep (parseStep m c) = _
      exact ih (parseStep m c) (parseStep_keeps_not_escaping m c hm hbc) hbr

end Tsv

namespace Tsv

/-- Sample TSV text used to witness the round-trip theorem: two rows, an
explicit empty cell, and an escaped newline inside a cell. -/
def sampleTsvText : List Char :=
  ['a', '\t', '\t', 'b', '\\', 'n', 'c', '\n', 'd']

/-- Test data of the repository's own `tsv_parsing` test
(src/draw/tsv.rs lines 184-214). -/
def tsvTestData : List Char :=
  ("Hello\tWorld\nThis\tIs\tA\tTest").toList

end Tsv

open Tsv in
/-- C2 (amended).  For every non-empty TSV text `t` with no carriage return,
in which every backslash begins one of the four valid escape pairs, and with
no trailing tab or newline and no tab directly before a newline (such
separators delimit a trailing empty cell or row that the parser drops),
re-encoding the parse of `t` yields `t` with every empty cell replaced by a
single space.  Moreover the writer escapes tab, newline, carriage return and
backslash as the two-character sequences `\t \n \r \\`, and (in
backslash-free text) unescaped carriage returns are dropped by the parser. -/
theorem tsv_round_trip_amended :
    (∀ t : List Char, t ≠ [] → noCR t = true → wellEscaped t = true →
        noDanglingSep t = true →
        encodeTsv (cellsOf (ParsedTsv.parse t)) = substEmptyCells t) ∧
    (writeContent ['\t'] = ['\\', 't'] ∧ writeContent ['\n'] = ['\\', 'n'] ∧
      writeContent ['\r'] = ['\\', 'r'] ∧ writeContent ['\\'] = ['\\', '\\']) ∧
    (∀ t : List Char, (∀ c ∈ t, c ≠ '\\') →
        ParsedTsv.parse t = ParsedTsv.parse (t.filter (· ≠ '\r'))) := by
  refine ⟨?_, by decide, ?_⟩
  · intro t _ hcr hwe hnd
    rw [cellsOf_parse]
    show encodeTsv (refFinish (t.foldl refStep
      { escaping := false, cell := [], row := [], rows := [] })) = _
    rw [encode_foldl_refStep t.length t
      { escaping := false, cell := [], row := [], rows := [] } le_rfl rfl hcr hwe hnd
      (fun _ hor => absurd hor (by simp)) (fun _ hrow => absurd rfl hrow)]
    simp [partialEnc, substEmptyCells]
  · intro t hb
    rw [ParsedTsv.parse, ParsedTsv.parse, foldl_parseStep_drop_cr t _ rfl hb]

open Tsv in
/-- Witness for C2 (amended): concrete text satisfying every hypothesis, on
which the round trip replaces the one empty cell by a space. -/
theorem tsv_round_trip_amended_witness :
    (sampleTsvText ≠ [] ∧ noCR sampleTsvText = true ∧ wellEscaped sampleTsvText = true ∧
      noDanglingSep sampleTsvText = true) ∧
    encodeTsv (cellsOf (ParsedTsv.parse sampleTsvText)) = substEmptyCells sampleTsvText :=
  ⟨by decide,
    tsv_round_trip_amended.1 sampleTsvText (by decide) (by decide) (by decide) (by decide)⟩

open Tsv in
/-- Counterexample to C2 as frozen: the text `\x` is non-empty and contains
no control character, yet re-encoding its parse yields `\\x` (the parser
keeps the invalid escape pair verbatim, the writer re-escapes the
backslash), which differs from the original by more than the
space-for-empty-cell substitution. -/
theorem tsv_round_trip_claim_counterexample :
    (['\\', 'x'] : List Char) ≠ [] ∧ noControlChars ['\\', 'x'] = true ∧
    encodeTsv (cellsOf (ParsedTsv.parse ['\\', 'x'])) ≠ substEmptyCells ['\\', 'x'] := by
  decide

open Tsv in
/-- C10 evaluated at the failing input, the repository's own test data:
row 0 of `"Hello\tWorld\nThis\tIs\tA\tTest"` has 2 cells, yet
`get_cell(0, 2)` returns `Some("This")` — the first cell of row 1 — because
`ParsedTsv::get_cell` bounds the span index only by the whole span table,
never by the addressed row's end. -/
theorem getCell_returns_other_rows_cell :
    (ParsedTsv.parse tsvTestData).numColumnsAt 0 = 2 ∧
    (ParsedTsv.parse tsvTestData).getCell 0 2 = some ['T', 'h', 'i', 's'] ∧
    cellsOf (ParsedTsv.parse tsvTestData) =
      [[['H', 'e', 'l', 'l', 'o'], ['W', 'o', 'r', 'l', 'd']],
       [['T', 'h', 'i', 's'], ['I', 's'], ['A'], ['T', 'e', 's', 't']]] := by
  decide

section TsvSanity

open Tsv

/-- Spec §8 scenario: parse `"a\tb\nc"` → 2 rows; row 0 = `"a","b"`,
row 1 = `"c"`. -/
example :
    cellsOf (ParsedTsv.parse ['a', '\t', 'b', '\n', 'c']) = [[['a'], ['b']], [['c']]] := by
  decide

example : (ParsedTsv.parse ['a', '\t', 'b', '\n', 'c']).numRows = 2 := by decide

end TsvSanity

namespace Engine

/-- `CellWriteContext` (src/viewer.rs lines 242-249). -/
inductive CellWriteContext where
  | paste
  | clear
  deriving Repr, DecidableEq

/-- The closed command set `Command<R>` (src/draw/state.rs lines 1637-1672).
The `usize` index newtypes (`ColumnIdx`, `RowIdx`, `VisColumnPos`,
`VisLinearIdx`, `RowSlabIndex`, `VisRowOffset`) are modelled as `Nat`;
`VisSelection` as a pair of linear indices; `IsAscending` as `Bool`; the
`String` payload of `CcUpdateSystemClipboard` as `List Char`.  The
`CcSetCells`/`SetCells` value triples are `(RowIdx, ColumnIdx,
RowSlabIndex)`. -/
inductive Cmd (R : Type) where
  | ccHideColumn (column : Nat)
  | ccShowColumn (what : Nat) (at_ : Nat)
  | ccReorderColumn (from_ : Nat) (to_ : Nat)
  | setColumnSort (sort : List (Nat × Bool))
  | setVisibleColumns (cols : List Nat)
  | ccSetSelection (sel : List (Nat × Nat))
  | setRowValue (row : Nat) (value : R)
  | ccSetCells (slab : List R) (values : List (Nat × Nat × Nat)) (context : CellWriteContext)
  | setCells (slab : List R) (values : List (Nat × Nat × Nat))
  | insertRows (pivot : Nat) (values : List R)
  | removeRow (indices : List Nat)
  | ccEditStart (row : Nat) (column : Nat) (value : R)
  | ccCancelEdit
  | ccCommitEdit
  | ccUpdateSystemClipboard (text : List Char)
  deriving DecidableEq

/-- `CursorState<R>` (src/draw/state.rs lines 283-291). -/
inductive CursorState (R : Type) where
  | select (selections : List (Nat × Nat))
  | edit (nextFocus : Bool) (lastFocus : Nat) (row : Nat) (edition : R)
  deriving DecidableEq

/-- One undo queue entry `UndoArg<R>` (src/draw/state.rs lines 250-253). -/
structure UndoArg (R : Type) where
  apply : Cmd R
  restore : List (Cmd R)
  deriving DecidableEq

/-- `Clipboard<R>` (src/draw/state.rs lines 233-239): the row snapshot slab
and the `(VisRowOffset, ColumnIdx, RowSlabIndex)` paste triples. -/
structure Clipboard (R : Type) where
  slab : List R
  pastes : List (Nat × Nat × Nat)
  deriving DecidableEq

/-- The engine state: `DataTable<R>` (rows and dirty flag) together with
`UiState<R>` and its `PersistData` (src/draw/state.rs lines 136-231).
Fields not consumed by any embedded code path are omitted: the cached row
heights (`f32` render data), the focus/scroll/page flags, and the viewer
identity hash of `validate_identity`. -/
structure UiState (R : Type) where
  rows : List R
  dirtyFlag : Bool
  undoQueue : List (UndoArg R)
  undoCursor : Nat
  clipboard : Option (Clipboard R)
  numColumns : Nat
  visCols : List Nat
  sort : List (Nat × Bool)
  ccRows : List Nat
  ccRowIdToVis : List (Nat × Nat)
  ccDirty : Bool
  cursor : CursorState R
  ccNumFrameFromLastEdit : Nat
  ccPrevNColumns : Nat
  ccInteractiveCell : Nat
  ccDesiredSelection : Option (List (Nat × List Nat))
  cciSelection : Option (Nat × Nat)
  deriving DecidableEq

/-- The capability interface `RowViewer<R>` (src/viewer.rs), restricted to
the hooks the embedded code paths consume.  `clone_row` is the identity in
value semantics; the fire-and-forget notification hooks return no data and
mutate no engine state, so they are omitted. -/
structure Viewer (R : Type) where
  filterRow : R → Bool
  compareCell : R → R → Nat → Ordering
  setCellValue : R → R → Nat → R
  isEditableCell : Nat → Nat → R → Bool
  confirmCellWrite : R → R → Nat → CellWriteContext → Bool
  isSortableColumn : Nat → Bool

/-- `egui::Modifiers`, abstracted to the three predicates the engine reads:
`is_none()`, `command_only()` and `cmd_ctrl_matches(SHIFT)`. -/
structure Modifiers where
  isNone : Bool
  commandOnly : Bool
  shiftCmdCtrl : Bool
  deriving Repr, DecidableEq

namespace Vis

/-- `VisLinearIdx::row_col` (src/draw/state.rs lines 122-127). -/
def rowCol (ncol idx : Nat) : Nat × Nat := (idx / ncol, idx % ncol)

/-- `VisRowPos::linear_index` (src/draw/state.rs lines 129-133). -/
def linearIndex (ncol row col : Nat) : Nat := row * ncol + col

/-- `VisSelection::from_points` (src/draw/state.rs lines 74-87): the
normalized rectangle spanned by two linear indices. -/
def fromPoints (ncol a b : Nat) : Nat × Nat :=
  let ar := rowCol ncol a
  let br := rowCol ncol b
  let top := min ar.1 br.1
  let bottom := max ar.1 br.1
  let left := min ar.2 br.2
  let right := max ar.2 br.2
  (top * ncol + left, bottom * ncol + right)

/-- `VisSelection::contains_rect` (src/draw/state.rs lines 61-72). -/
def containsRect (ncol : Nat) (self other : Nat × Nat) : Bool :=
  let tl := rowCol ncol self.1
  let br := rowCol ncol self.2
  let otl := rowCol ncol other.1
  let obr := rowCol ncol other.2
  decide (tl.1 ≤ otl.1) && decide (obr.1 ≤ br.1) &&
    decide (tl.2 ≤ otl.2) && decide (obr.2 ≤ br.2)

/-- `VisSelection::is_point` (src/draw/state.rs lines 89-91). -/
def isPoint (s : Nat × Nat) : Bool := s.1 = s.2

/-- `VisSelection::union` (src/draw/state.rs lines 93-109). -/
def union (ncol : Nat) (a b : Nat × Nat) : Nat × Nat :=
  let atl := rowCol ncol a.1
  let abr := rowCol ncol a.2
  let btl := rowCol ncol b.1
  let bbr := rowCol ncol b.2
  (min atl.1 btl.1 * ncol + min atl.2 btl.2,
   max abr.1 bbr.1 * ncol + max abr.2 bbr.2)

end Vis

variable {R : Type}

/-- Association lookup in the `cc_row_id_to_vis` map; the Rust `HashMap`
indexing panics on a missing key, modelled with a default of 0. -/
def lookupAssoc (l : List (Nat × Nat)) (k : Nat) : Nat :=
  (((l.find? (fun p => p.1 = k)).map (fun p => p.2)).getD 0)

/-- `UiState::validate_interactive_cell` (src/draw/state.rs lines
1165-1172): clamp the interactive cell's row to the visible-row count and
its column to `new_num_column`, re-linearised with the current
visible-column stride. -/
def validateInteractiveCell (s : UiState R) (newNumColumn : Nat) : UiState R :=
  let rc := Vis.rowCol s.visCols.length s.ccInteractiveCell
  let rmax := s.ccRows.length - 1
  let clen := s.visCols.length
  { s with ccInteractiveCell := min rc.1 rmax * clen + min rc.2 (newNumColumn - 1) }

/-- `UiState::queue_select_rows` (src/draw/state.rs lines 1161-1163). -/
def queueSelectRows (s : UiState R) (rowsSel : List Nat) : UiState R :=
  { s with ccDesiredSelection := some (rowsSel.map (fun r => (r, []))) }

/-- The `retain` loop of `Command::RemoveRow`'s application (src/draw/state.rs
lines 1141-1145): keep the rows whose index is not listed.  The source tests
membership with `binary_search` on the (debug-asserted sorted) index list;
plain membership is equivalent on sorted lists. -/
def removeIdxsFrom (i : Nat) : List R → List Nat → List R
  | [], _ => []
  | x :: xs, idxs =>
    if i ∈ idxs then removeIdxsFrom (i + 1) xs idxs else x :: removeIdxsFrom (i + 1) xs idxs

def removeIdxs (rows : List R) (idxs : List Nat) : List R := removeIdxsFrom 0 rows idxs

/-- `Vec::splice(pos..pos, values)` of `Command::InsertRows`
(src/draw/state.rs line 1122): insert a block at `pos` (the source panics
when `pos` exceeds the length; the model then appends at the end, and the
relevant theorems carry a `pos ≤ length` validity hypothesis). -/
def insertRowsAt (pos : Nat) (values rows : List R) : List R :=
  rows.take pos ++ values ++ rows.drop pos

variable [Inhabited R]

/-- `UiState::cmd_apply` (src/draw/state.rs lines 1076-1159).  The `Cc`
commands are `unreachable!()` there and the undo queue never holds them (the
storable commands are the only ones recorded); the model maps them to the
identity.  Rust's panicking indexing is made total with `getD` and
`List.set` (no-ops out of range). -/
def cmdApply (v : Viewer R) (s : UiState R) : Cmd R → UiState R
  | .setVisibleColumns cols =>
      let s := validateInteractiveCell s cols.length
      { s with visCols := cols, ccDirty := true }
  | .setColumnSort newSort => { s with sort := newSort, ccDirty := true }
  | .setRowValue rowId value =>
      { s with ccNumFrameFromLastEdit := 0, dirtyFlag := true,
               rows := s.rows.set rowId value }
  | .setCells slab values =>
      { s with ccNumFrameFromLastEdit := 0, dirtyFlag := true,
               rows := values.foldl (fun rs t =>
                 rs.set t.1 (v.setCellValue (slab.getD t.2.2 default) (rs.getD t.1 default)
                   t.2.1)) s.rows }
  | .insertRows pos values =>
      let s1 := { s with ccDirty := true, dirtyFlag := true,
                         rows := insertRowsAt pos values s.rows }
      queueSelectRows s1 (List.range' pos values.length)
  | .removeRow values =>
      let s1 := { s with ccDirty := true, dirtyFlag := true,
                         rows := removeIdxs s.rows values }
      queueSelectRows s1 []
  | _ => s

/-- `UiState::is_editing` (src/draw/state.rs lines 714-716). -/
def isEditing (s : UiState R) : Bool :=
  match s.cursor with
  | .edit .. => true
  | _ => false

/-- `UiState::try_take_edition` (src/draw/state.rs lines 1193-1207): leave
the `Select([])` state and hand back the edited row id, the scratch row and
the focused column. -/
def takeEdition (s : UiState R) : Option (Nat × R × Nat) × UiState R :=
  match s.cursor with
  | .edit _ lastFocus row edition =>
      (some (row, edition, lastFocus), { s with cursor := .select [] })
  | _ => (none, s)

/-- `Vec::dedup` (used at src/draw/state.rs line 979): remove consecutive
duplicates, keeping the first of each run. -/
def dedupConsec : List Nat → List Nat
  | [] => []
  | [x] => [x]
  | x :: y :: rest =>
    if x = y then dedupConsec (y :: rest) else x :: dedupConsec (y :: rest)

/-- The contiguous-chunk builder of `Command::RemoveRow`'s restore
computation (src/draw/state.rs lines 1027-1036): split the sorted index list
into maximal runs of consecutive indices. -/
def chunksAux (c : Nat) (run : List Nat) : List Nat → List (List Nat)
  | [] => [run]
  | b :: rest =>
    if c + 1 = b then chunksAux b (run ++ [b]) rest else run :: chunksAux b [b] rest

def chunksOf : List Nat → List (List Nat)
  | [] => []
  | x :: xs => chunksAux x [x] xs

/-- The restore-list computation of `push_new_command` for the storable
commands (the big `match` of src/draw/state.rs lines 851-1054); `none` means
the command is dropped silently - no history entry and no application. -/
def computeRestore (s : UiState R) : Cmd R → Option (List (Cmd R))
  | .setVisibleColumns value =>
      if s.visCols = value then none else some [.setVisibleColumns s.visCols]
  | .setColumnSort value =>
      if s.sort = value then none else some [.setColumnSort s.sort]
  | .setRowValue rowId _ => some [.setRowValue rowId (s.rows.getD rowId default)]
  | .setCells _ values =>
      some ((dedupConsec (values.map (fun t => t.1))).map
        (fun rowId => .setRowValue rowId (s.rows.getD rowId default)))
  | .insertRows pivot values => some [.removeRow (List.range' pivot values.length)]
  | .removeRow indices =>
      if indices = [] then none
      else some ((chunksOf indices).map (fun chunk =>
        .insertRows (chunk.headD 0) (chunk.map (fun i => s.rows.getD i default))))
  | _ => none

/-- The history bookkeeping of `push_new_command` (src/draw/state.rs lines
1056-1073) for a storable command: if no effective change results the
command is dropped; otherwise the redo tail is discarded, the queue is
trimmed to the capacity, the cursor resets to zero, the command is applied
and pushed to the front together with its restore list. -/
def pushStorable (v : Viewer R) (cap : Nat) (s : UiState R) (c : Cmd R) : UiState R :=
  match computeRestore s c with
  | none => s
  | some restore =>
      let q1 := s.undoQueue.drop s.undoCursor
      let newLen := min (cap - 1) q1.length
      let q2 := q1.take newLen
      let s1 := { s with undoQueue := q2, undoCursor := 0 }
      let s2 := cmdApply v s1 c
      { s2 with undoQueue := ⟨c, restore⟩ :: s2.undoQueue }

/-- The `CcCommitEdit` path of `push_new_command` (src/draw/state.rs lines
915-935): take the edition and, when one was active, re-push it as a
`SetRowValue` of the edited row. -/
def commitEdit (v : Viewer R) (cap : Nat) (s : UiState R) : UiState R :=
  match takeEdition s with
  | (some re, s1) => pushStorable v cap s1 (.setRowValue re.1 re.2.1)
  | (none, s1) => s1

def isCommitOrCancel : Cmd R → Bool
  | .ccCommitEdit => true
  | .ccCancelEdit => true
  | _ => false

/-- `UiState::push_new_command` (src/draw/state.rs lines 838-1074).  While
editing, any command other than commit/cancel first commits the edit
(source line 845-848).  The `Cc` commands are resolved to storable commands
or applied directly to the cache state, exactly as in the source; the
storable commands go through `pushStorable`.  `CcEditStart`'s `HashMap`
lookup and `CcSetSelection`'s highlight hooks panic on out-of-range caches
in Rust; the model defaults the lookup and omits the pure hooks. -/
def push (v : Viewer R) (cap : Nat) (s0 : UiState R) (c : Cmd R) : UiState R :=
  let s := if isEditing s0 && !isCommitOrCancel c then commitEdit v cap s0 else s0
  match c with
  | .ccHideColumn column =>
      if s.visCols.length = 1 then s
      else
        let idx := s.visCols.findIdx (fun x => x = column)
        pushStorable v cap s (.setVisibleColumns (s.visCols.eraseIdx idx))
  | .ccShowColumn what at_ =>
      pushStorable v cap s (.setVisibleColumns (s.visCols.insertIdx at_ what))
  | .ccReorderColumn from_ to_ =>
      if from_ = to_ ∨ s.visCols.length < to_ then s
      else
        let x := s.visCols.getD from_ 0
        let vis :=
          if from_ < to_ then (s.visCols.insertIdx to_ x).eraseIdx from_
          else (s.visCols.eraseIdx from_).insertIdx to_ x
        pushStorable v cap s (.setVisibleColumns vis)
  | .ccEditStart row column value =>
      { s with cursor := .edit true column row value,
               ccInteractiveCell :=
                 Vis.linearIndex s.visCols.length (lookupAssoc s.ccRowIdToVis row) column }
  | .ccCommitEdit => commitEdit v cap s
  | .ccCancelEdit => (takeEdition s).2
  | .ccSetSelection sel =>
      let s1 := if sel ≠ [] then { s with ccInteractiveCell := (sel.headD (0, 0)).1 } else s
      { s1 with cursor := .select sel }
  | .ccSetCells slab values context =>
      pushStorable v cap s (.setCells slab (values.filter (fun t =>
        v.isEditableCell t.2.1 t.1 (s.rows.getD t.1 default) &&
        v.confirmCellWrite (s.rows.getD t.1 default) (slab.getD t.2.2 default) t.2.1 context)))
  | .ccUpdateSystemClipboard _ => s
  | c => pushStorable v cap s c

/-- `UiState::undo` (src/draw/state.rs lines 1226-1242): at the back of the
history return `false` unchanged, otherwise apply the restore list of the
entry at the cursor and advance the cursor. -/
def undo (v : Viewer R) (s : UiState R) : UiState R × Bool :=
  if s.undoCursor = s.undoQueue.length then (s, false)
  else
    match s.undoQueue[s.undoCursor]? with
    | none => (s, false)
    | some item =>
        let s1 := item.restore.foldl (cmdApply v) s
        ({ s1 with undoCursor := s.undoCursor + 1 }, true)

/-- `UiState::redo` (src/draw/state.rs lines 1244-1257): at cursor zero
return `false` unchanged, otherwise decrement the cursor and re-apply the
original command at the new cursor position. -/
def redo (v : Viewer R) (s : UiState R) : UiState R × Bool :=
  if s.undoCursor = 0 then (s, false)
  else
    match s.undoQueue[s.undoCursor - 1]? with
    | none => (s, false)
    | some item =>
        (cmdApply v { s with undoCursor := s.undoCursor - 1 } item.apply, true)

/-- The engine state after `UiState::default()` followed by the reset branch
of `validate_identity` (src/draw/state.rs lines 255-281 and 344-352): fresh
caches, all columns visible, cache marked dirty. -/
def initState (rows : List R) (numColumns : Nat) : UiState R :=
  { rows := rows, dirtyFlag := false, undoQueue := [], undoCursor := 0,
    clipboard := none, numColumns := numColumns, visCols := List.range numColumns,
    sort := [], ccRows := [], ccRowIdToVis := [], ccDirty := true,
    cursor := .select [], ccNumFrameFromLastEdit := 0, ccPrevNColumns := 0,
    ccInteractiveCell := 0, ccDesiredSelection := none, cciSelection := none }

/-- The `CcEditStart` shape test (used for the auto-commit statement). -/
def isEditStart : Cmd R → Bool
  | .ccEditStart .. => true
  | _ => false

/-- Stable insertion: the new element goes before the first element strictly
greater under the comparator, hence after every element already in the list
that it ties with.  `slice::sort_by` (src/draw/state.rs line 403) is
documented as a stable sort, and for a comparator inducing a total preorder
the stable-sorted permutation is unique, so insertion sort realises it. -/
def stInsert {α : Type} (cmp : α → α → Ordering) (x : α) : List α → List α
  | [] => [x]
  | y :: ys => if cmp x y = .gt then y :: stInsert cmp x ys else x :: y :: ys

/-- One stable `sort_by` pass (src/draw/state.rs lines 403-410). -/
def stableSortBy {α : Type} (cmp : α → α → Ordering) : List α → List α
  | [] => []
  | x :: rest => stInsert cmp x (stableSortBy cmp rest)

/-- The comparator closure of one sort pass (src/draw/state.rs lines
403-410): compare the two rows' cells at the key's column, reversing the
result when the key is descending (`Ordering::reverse` is `Ordering.swap`). -/
def passCmp (v : Viewer R) (rows : List R) (key : Nat × Bool) (a b : Nat) : Ordering :=
  let o := v.compareCell (rows.getD a default) (rows.getD b default) key.1
  if key.2 then o else o.swap

/-- The filtered visible-row list (src/draw/state.rs lines 394-400): the
indices of the rows accepted by the viewer's filter, in row-store order. -/
def filterRowIdxs (v : Viewer R) (rows : List R) : List Nat :=
  (List.range rows.length).filter (fun i => v.filterRow (rows.getD i default))

/-- The sort loop of `validate_cc` (src/draw/state.rs lines 402-411): one
stable pass per sort key, the keys iterated from last to first. -/
def ccSortRows (v : Viewer R) (rows : List R) (sort : List (Nat × Bool))
    (l : List Nat) : List Nat :=
  sort.reverse.foldl (fun acc key => stableSortBy (passCmp v rows key) acc) l

/-- `UiState::handle_desired_selection` (src/draw/state.rs lines 640-677):
a queued desired selection is always consumed; with a `Select` cursor it is
resolved to concrete rectangles (the whole visible row when no columns are
named, one point per still-visible named column otherwise) and the method
returns `true`.  The Rust `HashMap` indexing of a vanished row id panics;
`lookupAssoc` makes it total with a default of 0. -/
def handleDesiredSelection (s : UiState R) : UiState R × Bool :=
  match s.ccDesiredSelection, s.cursor with
  | some nextSel, .select _ =>
      let ncol := s.visCols.length
      let sel := nextSel.foldl (fun acc p =>
        let visRow := lookupAssoc s.ccRowIdToVis p.1
        if p.2.isEmpty then
          acc ++ [(Vis.linearIndex ncol visRow 0, Vis.linearIndex ncol visRow (ncol - 1))]
        else
          acc ++ p.2.filterMap (fun col =>
            (s.visCols.findIdx? (fun x => x = col)).map (fun visC =>
              (Vis.linearIndex ncol visRow visC, Vis.linearIndex ncol visRow visC)))) []
      ({ s with ccDesiredSelection := none, cursor := .select sel }, true)
  | some _, .edit _ _ _ _ => ({ s with ccDesiredSelection := none }, false)
  | none, _ => (s, false)

/-- `UiState::validate_cc` (src/draw/state.rs lines 382-456), restricted to
the engine fields (the row-height refill is render data).  When the cache is
clean only the queued desired selection is handled; otherwise the cache is
refiltered and re-sorted, the row-id map rebuilt, the select cursor's
rectangles revalidated against the new grid, and the interactive cell
clamped. -/
def validateCC (v : Viewer R) (s : UiState R) : UiState R :=
  if s.ccDirty = false then (handleDesiredSelection s).1
  else
    let s0 := { s with ccDirty := false }
    let ccRows := ccSortRows v s0.rows s0.sort (filterRowIdxs v s0.rows)
    let s1 := { s0 with ccRows := ccRows,
                        ccRowIdToVis := ccRows.enum.map (fun p => (p.2, p.1)) }
    let hd := handleDesiredSelection s1
    let s2 :=
      if hd.2 then hd.1
      else
        match hd.1.cursor with
        | .select cursor =>
            let oldCols := hd.1.ccPrevNColumns
            let newRows := hd.1.ccRows.length
            let newCols := hd.1.numColumns
            { hd.1 with ccPrevNColumns := newCols,
                        cursor := .select (cursor.filterMap (fun sel =>
                let omin := Vis.rowCol oldCols sel.1
                if omin.1 ≥ newRows ∨ omin.2 ≥ newCols then none
                else
                  let omax := Vis.rowCol oldCols sel.2
                  some (Vis.linearIndex newCols omin.1 omin.2,
                    Vis.linearIndex newCols (min omax.1 (newRows - 1))
                      (min omax.2 (newCols - 1))))) }
        | .edit _ _ _ _ => { hd.1 with cursor := .select [] }
    validateInteractiveCell s2 s2.visCols.length

/-- `UiState::cci_take_selection` (src/draw/state.rs lines 1594-1630).  The
gesture pivot/current pair is consumed; with no modifier the normalized
gesture rectangle replaces the whole selection; otherwise it is merged into
the committed selection per the command/shift modifier rules.  The
`sel.last_mut().unwrap()` of the shift branch is made total with `getD`. -/
def cciTakeSelection (s : UiState R) (mods : Modifiers) :
    Option (List (Nat × Nat)) × UiState R :=
  match s.cciSelection with
  | none => (none, s)
  | some p =>
      let ncol := s.visCols.length
      let cciSel := Vis.fromPoints ncol p.1 p.2
      let s1 : UiState R := { s with cciSelection := none }
      if mods.isNone then (some [cciSel], s1)
      else
        let sel0 := match s1.cursor with
          | .select x => x
          | _ => []
        let idxContains := sel0.findIdx? (fun x => Vis.containsRect ncol x cciSel)
        if sel0.isEmpty then (some [cciSel], s1)
        else
          let sel1 :=
            if mods.commandOnly then
              match idxContains with
              | some idx => sel0.eraseIdx idx
              | none => sel0 ++ [cciSel]
            else sel0
          let sel2 :=
            if mods.shiftCmdCtrl then
              if Vis.isPoint cciSel && Vis.isPoint (sel1.getD (sel1.length - 1) (0, 0)) then
                sel1.take (sel1.length - 1) ++
                  [Vis.union ncol (sel1.getD (sel1.length - 1) (0, 0)) cciSel]
              else if idxContains = none then sel1 ++ [cciSel] else sel1
            else sel1
          (some sel2, s1)

/-- The `chunk_by(|(row, ..)| *row)` grouping of `PasteInPlace`
(src/draw/state.rs lines 1392-1394): group consecutive triples with equal
row id, collecting their column indices. -/
def chunkRowsAux (row : Nat) (cols : List Nat) :
    List (Nat × Nat × Nat) → List (Nat × List Nat)
  | [] => [(row, cols)]
  | t :: rest =>
      if t.1 = row then chunkRowsAux row (cols ++ [t.2.1]) rest
      else (row, cols) :: chunkRowsAux t.1 [t.2.1] rest

def chunkRows : List (Nat × Nat × Nat) → List (Nat × List Nat)
  | [] => []
  | t :: rest => chunkRowsAux t.1 [t.2.1] rest

/-- The issued batch of `UiAction::PasteInPlace` (src/draw/state.rs lines
1382-1387): each clipboard triple `(offset, col, slab)` is projected through
the interactive row; a triple whose target row `icr + offset` falls beyond
the visible-row cache is dropped, the others map the visible row to the row
id `cc_rows[icr + offset]` and carry the column and slab index unchanged. -/
def pasteValues (s : UiState R) (icr : Nat) (clip : Clipboard R) :
    List (Nat × Nat × Nat) :=
  clip.pastes.filterMap (fun t =>
    if icr + t.1 < s.ccRows.length then
      some (s.ccRows.getD (icr + t.1) 0, t.2.1, t.2.2)
    else none)

/-- `UiState::try_apply_ui_action` for `UiAction::PasteInPlace`
(src/draw/state.rs lines 1377-1401): with no clipboard nothing happens;
otherwise the projected triples become the desired selection (grouped by
row) and one `CcSetCells` command is issued (`clone_row` is the identity in
value semantics). -/
def tryApplyPasteInPlace (s : UiState R) (icr : Nat) : UiState R × List (Cmd R) :=
  match s.clipboard with
  | none => (s, [])
  | some clip =>
      let values := pasteValues s icr clip
      ({ s with ccDesiredSelection := some (chunkRows values) },
       [.ccSetCells clip.slab values .paste])

/-- The visible-data projection of the engine state: the row values, the
visible-column list and the sort spec - exactly the fields `cmd_apply` can
change. -/
def projH (s : UiState R) : List R × List Nat × List (Nat × Bool) :=
  (s.rows, s.visCols, s.sort)

/-- `cmd_apply`'s action on the projection (src/draw/state.rs lines
1076-1159): the same row/column/sort updates as `cmdApply`. -/
def applyH (v : Viewer R) (h : List R × List Nat × List (Nat × Bool)) :
    Cmd R → List R × List Nat × List (Nat × Bool)
  | .setVisibleColumns cols => (h.1, cols, h.2.2)
  | .setColumnSort newSort => (h.1, h.2.1, newSort)
  | .setRowValue rowId value => (h.1.set rowId value, h.2.1, h.2.2)
  | .setCells slab values =>
      (values.foldl (fun rs t =>
        rs.set t.1 (v.setCellValue (slab.getD t.2.2 default) (rs.getD t.1 default)
          t.2.1)) h.1, h.2.1, h.2.2)
  | .insertRows pos values => (insertRowsAt pos values h.1, h.2.1, h.2.2)
  | .removeRow values => (removeIdxs h.1 values, h.2.1, h.2.2)
  | _ => h

def applyHs (v : Viewer R) (h : List R × List Nat × List (Nat × Bool))
    (cs : List (Cmd R)) : List R × List Nat × List (Nat × Bool) :=
  cs.foldl (applyH v) h

/-- The undo-queue entries at or below the cursor, checked downward from the
projection `h` of the current state: each entry's restore list leads to the
next older projection and its apply command leads back up. -/
def upOK (v : Viewer R) :
    List R × List Nat × List (Nat × Bool) → List (UndoArg R) → Prop
  | _, [] => True
  | h, e :: rest =>
      applyH v (applyHs v h e.restore) e.apply = h ∧
      upOK v (applyHs v h e.restore) rest

/-- The already-undone entries above the cursor, listed cursor-first: each
entry's apply command leads to the next newer projection and its restore
list leads back down. -/
def downOK (v : Viewer R) :
    List R × List Nat × List (Nat × Bool) → List (UndoArg R) → Prop
  | _, [] => True
  | h, e :: rest =>
      applyHs v (applyH v h e.apply) e.restore = h ∧
      downOK v (applyH v h e.apply) rest

/-- The undo-chain invariant: the cursor is in range and every queue entry
inverts correctly along the chain of projections anchored at the current
state. -/
def invar (v : Viewer R) (s : UiState R) : Prop :=
  s.undoCursor ≤ s.undoQueue.length ∧
  upOK v (projH s) (s.undoQueue.drop s.undoCursor) ∧
  downOK v (projH s) ((s.undoQueue.take s.undoCursor).reverse)

/-- One driver step against the engine: push a command, or call `undo` or
`redo`. -/
inductive Op (R : Type) where
  | push (c : Cmd R)
  | undo
  | redo

def stepOp (v : Viewer R) (cap : Nat) (s : UiState R) : Op R → UiState R
  | .push c => push v cap s c
  | .undo => (undo v s).1
  | .redo => (redo v s).1

/-- Validity of a pushed command, mirroring what the source asserts or would
panic on: `InsertRows` splices at a pivot within the row store
(`Vec::splice` panics past the end) and `RemoveRow` carries a strictly
ascending in-range index list (`debug_assert!` sortedness; `binary_search`
membership equals plain membership only then). -/
def cmdOk (s : UiState R) : Cmd R → Bool
  | .insertRows pivot _ => decide (pivot ≤ s.rows.length)
  | .removeRow idxs =>
      decide (List.Chain' (fun a b => a < b) idxs) &&
        idxs.all (fun j => decide (j < s.rows.length))
  | _ => true

def opOk (s : UiState R) : Op R → Bool
  | .push c => cmdOk s c
  | _ => true

def opsOk (v : Viewer R) (cap : Nat) (s : UiState R) : List (Op R) → Bool
  | [] => true
  | o :: os => opOk s o && opsOk v cap (stepOp v cap s o) os

def runOps (v : Viewer R) (cap : Nat) (s : UiState R) (ops : List (Op R)) : UiState R :=
  ops.foldl (stepOp v cap) s

/-- The visible state named by the round-trip claim: row values, the
selection (cursor), the visible-column list and the sort spec. -/
def visState (s : UiState R) :
    List R × CursorState R × List Nat × List (Nat × Bool) :=
  (s.rows, s.cursor, s.visCols, s.sort)

end Engine

namespace Engine

/-- A concrete viewer over `Nat` rows for the witness states. -/
def viewerN : Viewer Nat :=
  { filterRow := fun _ => true
    compareCell := fun a b _ => compare a b
    setCellValue := fun src _ _ => src
    isEditableCell := fun _ _ _ => true
    confirmCellWrite := fun _ _ _ _ => true
    isSortableColumn := fun _ => true }

/-- A viewer over `List Nat` rows whose cells are the list entries. -/
def viewerL : Viewer (List Nat) :=
  { filterRow := fun _ => true
    compareCell := fun a b c => compare (a.getD c 0) (b.getD c 0)
    setCellValue := fun src tgt c => tgt.set c (src.getD c 0)
    isEditableCell := fun _ _ _ => true
    confirmCellWrite := fun _ _ _ _ => true
    isSortableColumn := fun _ => true }

/-- `viewerN` with a filter that rejects every row. -/
def viewerNone : Viewer Nat :=
  { viewerN with filterRow := fun _ => false }

/-- A one-column state in the middle of an edit session. -/
def e2 : UiState Nat := { initState [5] 1 with cursor := .edit false 0 0 42 }

def entryQ : UndoArg Nat := ⟨.setColumnSort [(0, true)], [.setColumnSort []]⟩

/-- One stored undo entry, cursor at the front (redo exhausted). -/
def sQ0 : UiState Nat := { initState [1] 1 with undoQueue := [entryQ] }

/-- One stored undo entry, cursor at the back (undo exhausted). -/
def sQ1 : UiState Nat :=
  { initState [1] 1 with undoQueue := [entryQ], undoCursor := 1 }

/-- A dirty cache over rows `[3, 3, 1]` with one descending sort key. -/
def sC3 : UiState Nat := { initState [3, 3, 1] 1 with sort := [(0, false)] }

/-- A dirty cache over rows `[3, 3, 1]` with no sort keys. -/
def sC3b : UiState Nat := initState [3, 3, 1] 1

/-- A dirty two-column cache whose interactive cell sits at column 1. -/
def sC8 : UiState Nat := { initState [7] 2 with ccInteractiveCell := 1 }

/-- Two columns of which only column 0 is visible, and a clipboard triple
that addresses the hidden column 1. -/
def sPaste : UiState (List Nat) :=
  { initState [[5, 7]] 2 with visCols := [0],
                              clipboard := some ⟨[[9, 9]], [(0, 1, 0)]⟩,
                              ccRows := [0] }

/-- A two-column state with a pending gesture selection and a previously
committed selection rectangle. -/
def sC9 : UiState Nat :=
  { initState [1, 2, 3] 2 with cciSelection := some (5, 2),
                               cursor := .select [(0, 0)] }

end Engine

namespace Engine

variable {R : Type} [Inhabited R]

lemma cmdApply_cursor (v : Viewer R) (s : UiState R) (c : Cmd R) :
    (cmdApply v s c).cursor = s.cursor := by
  cases c <;> rfl

lemma cmdApply_visCols (v : Viewer R) (s : UiState R) (c : Cmd R) :
    (cmdApply v s c).visCols = s.visCols ∨
      ∃ cols, c = .setVisibleColumns cols ∧ (cmdApply v s c).visCols = cols := by
  cases c <;> simp [cmdApply, queueSelectRows]

lemma foldl_cmdApply_cursor (v : Viewer R) (l : List (Cmd R)) :
    ∀ s : UiState R, (l.foldl (cmdApply v) s).cursor = s.cursor := by
  induction l with
  | nil => intro s; rfl
  | cons c rest ih => intro s; rw [List.foldl_cons, ih, cmdApply_cursor]

lemma pushStorable_cursor (v : Viewer R) (cap : Nat) (s : UiState R) (c : Cmd R) :
    (pushStorable v cap s c).cursor = s.cursor := by
  unfold pushStorable
  cases computeRestore s c with
  | none => rfl
  | some restore => simp [cmdApply_cursor]

lemma pushStorable_visCols_setVisibleColumns (v : Viewer R) (cap : Nat) (s : UiState R)
    (cols : List Nat) :
    (pushStorable v cap s (.setVisibleColumns cols)).visCols =
      if s.visCols = cols then s.visCols else cols := by
  unfold pushStorable computeRestore
  by_cases h : s.visCols = cols <;> simp [h, cmdApply, validateInteractiveCell]

lemma takeEdition_not_editing (s : UiState R) : isEditing (takeEdition s).2 = false := by
  unfold takeEdition isEditing
  cases hc : s.cursor <;> simp [hc]

lemma commitEdit_not_editing (v : Viewer R) (cap : Nat) (s : UiState R) :
    isEditing (commitEdit v cap s) = false := by
  unfold commitEdit takeEdition
  cases hc : s.cursor with
  | select _ =>
    show isEditing s = false
    unfold isEditing
    rw [hc]
  | edit nf lf row ed =>
    show isEditing (pushStorable v cap { s with cursor := .select [] } _) = false
    rw [isEditing, pushStorable_cursor]

lemma commitEdit_visCols (v : Viewer R) (cap : Nat) (s : UiState R) :
    (commitEdit v cap s).visCols = s.visCols := by
  unfold commitEdit takeEdition
  cases s.cursor with
  | select _ => rfl
  | edit nf lf row ed =>
    show (pushStorable v cap { s with cursor := .select [] } _).visCols = _
    unfold pushStorable computeRestore
    simp [cmdApply]

end Engine

namespace Engine

variable {R : Type} [Inhabited R]

lemma isEditing_pushStorable (v : Viewer R) (cap : Nat) (s : UiState R) (c : Cmd R) :
    isEditing (pushStorable v cap s c) = isEditing s := by
  unfold isEditing
  rw [pushStorable_cursor]

lemma push_commit_eq (v : Viewer R) (cap : Nat) (s : UiState R) :
    push v cap s .ccCommitEdit = commitEdit v cap s := by
  unfold push
  simp [isCommitOrCancel]

/-- C5 (amended): a hide-column request arriving with no edit session in
progress while exactly one column is visible is rejected outright - the
state is returned unchanged, so no history entry is produced; and
regardless of the editing state, a hide-column push never empties the
visible-column list.  (The unamended claim fails while editing: the
auto-commit of the edit session changes state and pushes a history entry
even though the hide request itself is rejected.) -/
theorem hide_column_guard_amended (v : Viewer R) (cap : Nat) (s : UiState R) (col : Nat) :
    (isEditing s = false → s.visCols.length = 1 →
      push v cap s (.ccHideColumn col) = s) ∧
    (0 < s.visCols.length →
      0 < (push v cap s (.ccHideColumn col)).visCols.length) := by
  constructor
  · intro hne h1
    unfold push
    simp [hne, isCommitOrCancel, h1]
  · intro hpos
    have hgoal : push v cap s (.ccHideColumn col) =
        (if (if isEditing s && !isCommitOrCancel (Cmd.ccHideColumn col) then
              commitEdit v cap s else s).visCols.length = 1 then
          (if isEditing s && !isCommitOrCancel (Cmd.ccHideColumn col) then
            commitEdit v cap s else s)
        else
          pushStorable v cap
            (if isEditing s && !isCommitOrCancel (Cmd.ccHideColumn col) then
              commitEdit v cap s else s)
            (.setVisibleColumns
              ((if isEditing s && !isCommitOrCancel (Cmd.ccHideColumn col) then
                  commitEdit v cap s else s).visCols.eraseIdx
                ((if isEditing s && !isCommitOrCancel (Cmd.ccHideColumn col) then
                    commitEdit v cap s else s).visCols.findIdx
                  (fun x => x = col))))) := rfl
    rw [hgoal]
    set s' := if isEditing s && !isCommitOrCancel (Cmd.ccHideColumn col) then
      commitEdit v cap s else s with hs'
    have hv : s'.visCols = s.visCols := by
      rw [hs']
      split
      · exact commitEdit_visCols v cap s
      · rfl
    by_cases h1 : s'.visCols.length = 1
    · rw [if_pos h1, h1]
      omega
    · rw [if_neg h1, pushStorable_visCols_setVisibleColumns]
      have hlen : s'.visCols.length = s.visCols.length := by rw [hv]
      split
      · omega
      · rw [List.length_eraseIdx]
        split <;> omega

/-- C5 counterexample to the unamended claim: with one visible column and an
active edit session, pushing a hide-column request does change state and
does add an undo-history entry (its auto-commit runs before the guard). -/
theorem hide_column_claim_counterexample :
    e2.visCols.length = 1 ∧
    push viewerN 100 e2 (.ccHideColumn 0) ≠ e2 ∧
    e2.undoQueue = [] ∧
    (push viewerN 100 e2 (.ccHideColumn 0)).undoQueue ≠ [] := by decide

theorem hide_column_guard_amended_witness :
    push viewerN 100 (initState [1] 1) (.ccHideColumn 0) = initState [1] 1 ∧
    0 < (push viewerN 100 (initState [1] 1) (.ccHideColumn 0)).visCols.length :=
  ⟨(hide_column_guard_amended viewerN 100 (initState [1] 1) 0).1 (by decide) (by decide),
   (hide_column_guard_amended viewerN 100 (initState [1] 1) 0).2 (by decide)⟩

/-- C6: `undo` at the back of the history (cursor equal to the queue
length) returns false and changes nothing, otherwise it applies the restore
list of the entry at the cursor and advances the cursor; `redo` at cursor
zero returns false and changes nothing, otherwise it decrements the cursor
and re-applies the original command of the entry at the new position. -/
theorem undo_redo_api (v : Viewer R) (s : UiState R) :
    (s.undoCursor = s.undoQueue.length → undo v s = (s, false)) ∧
    (∀ e, s.undoQueue[s.undoCursor]? = some e →
      undo v s =
        ({ e.restore.foldl (cmdApply v) s with undoCursor := s.undoCursor + 1 }, true)) ∧
    (s.undoCursor = 0 → redo v s = (s, false)) ∧
    (∀ e, s.undoCursor ≠ 0 → s.undoQueue[s.undoCursor - 1]? = some e →
      redo v s = (cmdApply v { s with undoCursor := s.undoCursor - 1 } e.apply, true)) := by
  refine ⟨?_, ?_, ?_, ?_⟩
  · intro h
    unfold undo
    rw [if_pos h]
  · intro e he
    have hlt : s.undoCursor < s.undoQueue.length := by
      by_contra hge
      rw [List.getElem?_eq_none (by omega)] at he
      exact Option.noConfusion he
    unfold undo
    rw [if_neg (by omega), he]
  · intro h
    unfold redo
    rw [if_pos h]
  · intro e h he
    unfold redo
    rw [if_neg h, he]

theorem undo_redo_api_witness :
    undo viewerN sQ1 = (sQ1, false) ∧
    undo viewerN sQ0 =
      ({ entryQ.restore.foldl (cmdApply viewerN) sQ0 with undoCursor := 0 + 1 }, true) ∧
    redo viewerN sQ0 = (sQ0, false) ∧
    redo viewerN sQ1 = (cmdApply viewerN { sQ1 with undoCursor := 1 - 1 } entryQ.apply, true) :=
  ⟨(undo_redo_api viewerN sQ1).1 (by decide),
   (undo_redo_api viewerN sQ0).2.1 entryQ (by decide),
   (undo_redo_api viewerN sQ0).2.2.1 (by decide),
   (undo_redo_api viewerN sQ1).2.2.2 entryQ (by decide) (by decide)⟩

/-- C7: a command pushed during an edit session that is itself neither
commit-edit nor cancel-edit behaves exactly as if a commit-edit command had
been pushed first (the edit is committed recursively, as a commit command),
and afterwards no edit session is active unless the command itself starts a
new one. -/
theorem push_commits_edit_first (v : Viewer R) (cap : Nat) (s : UiState R) (c : Cmd R)
    (he : isEditing s = true) (hnc : isCommitOrCancel c = false) :
    push v cap s c = push v cap (push v cap s .ccCommitEdit) c ∧
    (isEditStart c = false → isEditing (push v cap s c) = false) := by
  have hcomm : push v cap s .ccCommitEdit = commitEdit v cap s := push_commit_eq v cap s
  have hne : isEditing (commitEdit v cap s) = false := commitEdit_not_editing v cap s
  constructor
  · rw [hcomm]
    unfold push
    simp only [he, hnc, hne, Bool.not_false, Bool.and_true, Bool.false_and,
      if_true, if_false, Bool.true_and]
    cases c <;> rfl
  · intro hnes
    unfold push
    simp only [he, hnc, Bool.not_false, Bool.and_true, if_true, Bool.true_and]
    cases c <;> dsimp only <;>
      first
      | (exact hne)
      | (rw [isEditing_pushStorable]; exact hne)
      | (split <;> first
          | (exact hne)
          | (rw [isEditing_pushStorable]; exact hne))
      | rfl
      | (simp only [isEditStart] at hnes; exact Bool.noConfusion hnes)
      | (simp only [isCommitOrCancel] at hnc; exact Bool.noConfusion hnc)

theorem push_commits_edit_first_witness :
    push viewerN 10 e2 (.setColumnSort [(0, true)]) =
      push viewerN 10 (push viewerN 10 e2 .ccCommitEdit) (.setColumnSort [(0, true)]) ∧
    isEditing (push viewerN 10 e2 (.setColumnSort [(0, true)])) = false :=
  ⟨(push_commits_edit_first viewerN 10 e2 (.setColumnSort [(0, true)])
      (by decide) (by decide)).1,
   (push_commits_edit_first viewerN 10 e2 (.setColumnSort [(0, true)])
      (by decide) (by decide)).2 (by decide)⟩

/-- C9: with a gesture pivot/current pair present and no modifier keys,
`cci_take_selection` returns exactly one rectangle - the normalized
rectangle spanned by the two gesture points (independent of their order) -
and the prior committed selection plays no part in the result; the gesture
pair is consumed and nothing else changes. -/
theorem cci_take_selection_no_mods (s : UiState R) (mods : Modifiers) (p : Nat × Nat)
    (hp : s.cciSelection = some p) (hm : mods.isNone = true) :
    (cciTakeSelection s mods).1 = some [Vis.fromPoints s.visCols.length p.1 p.2] ∧
    (cciTakeSelection s mods).2 = { s with cciSelection := none } ∧
    Vis.fromPoints s.visCols.length p.1 p.2 =
      Vis.fromPoints s.visCols.length p.2 p.1 := by
  unfold cciTakeSelection
  rw [hp]
  simp only [hm, if_true]
  refine ⟨trivial, trivial, ?_⟩
  unfold Vis.fromPoints
  simp [Nat.min_comm, Nat.max_comm]

theorem cci_take_selection_no_mods_witness :
    (cciTakeSelection sC9 ⟨true, false, false⟩).1
      = some [Vis.fromPoints sC9.visCols.length 5 2] ∧
    (cciTakeSelection sC9 ⟨true, false, false⟩).2 = { sC9 with cciSelection := none } := by
  have h := cci_take_selection_no_mods sC9 ⟨true, false, false⟩ (5, 2) (by decide) (by decide)
  exact ⟨h.1, h.2.1⟩

end Engine

namespace Engine

variable {R : Type} [Inhabited R]

/-- C4 (amended): paste-in-place clips against the visible ROW range only -
a clipboard triple is dropped exactly when its row offset projected through
the interactive row falls beyond the visible-row cache, and every issued
write targets a cached visible row; the column index of each surviving
triple is carried over verbatim with no visible-column check (so a paste may
write to a column that is currently hidden - see the counterexample). -/
theorem paste_in_place_amended (s : UiState R) (icr : Nat) (clip : Clipboard R)
    (hc : s.clipboard = some clip) :
    (tryApplyPasteInPlace s icr).2 =
      [.ccSetCells clip.slab (pasteValues s icr clip) .paste] ∧
    (∀ t : Nat × Nat × Nat, t ∈ pasteValues s icr clip ↔
      ∃ p ∈ clip.pastes, icr + p.1 < s.ccRows.length ∧
        t = (s.ccRows.getD (icr + p.1) 0, p.2.1, p.2.2)) ∧
    (∀ t ∈ pasteValues s icr clip, t.1 ∈ s.ccRows) := by
  refine ⟨?_, ?_, ?_⟩
  · unfold tryApplyPasteInPlace
    rw [hc]
  · intro t
    unfold pasteValues
    rw [List.mem_filterMap]
    constructor
    · rintro ⟨p, hp, hsome⟩
      by_cases hlt : icr + p.1 < s.ccRows.length
      · rw [if_pos hlt] at hsome
        exact ⟨p, hp, hlt, (Option.some.inj hsome).symm⟩
      · rw [if_neg hlt] at hsome
        exact Option.noConfusion hsome
    · rintro ⟨p, hp, hlt, ht⟩
      exact ⟨p, hp, by rw [if_pos hlt, ht]⟩
  · intro t ht
    unfold pasteValues at ht
    rw [List.mem_filterMap] at ht
    obtain ⟨p, hp, hsome⟩ := ht
    by_cases hlt : icr + p.1 < s.ccRows.length
    · rw [if_pos hlt] at hsome
      have heq := Option.some.inj hsome
      have ht1 : t.1 = s.ccRows.getD (icr + p.1) 0 := by rw [← heq]
      rw [ht1, List.getD_eq_getElem _ _ hlt]
      exact List.getElem_mem _
    · rw [if_neg hlt] at hsome
      exact Option.noConfusion hsome

/-- C4 counterexample to the unamended claim: with only column 0 visible, a
clipboard triple addressing column 1 survives into the issued batch (it is
neither dropped nor clamped), and pushing the issued command writes the
hidden column-1 cell of row 0. -/
theorem paste_in_place_claim_counterexample :
    (tryApplyPasteInPlace sPaste 0).2 = [.ccSetCells [[9, 9]] [(0, 1, 0)] .paste] ∧
    sPaste.visCols = [0] ∧
    (push viewerL 10 sPaste (.ccSetCells [[9, 9]] [(0, 1, 0)] .paste)).rows = [[5, 9]] ∧
    sPaste.rows = [[5, 7]] := by decide

theorem paste_in_place_amended_witness :
    (tryApplyPasteInPlace sPaste 0).2 =
      [.ccSetCells [[9, 9]] (pasteValues sPaste 0 ⟨[[9, 9]], [(0, 1, 0)]⟩) .paste] ∧
    ∀ t ∈ pasteValues sPaste 0 ⟨[[9, 9]], [(0, 1, 0)]⟩, t.1 ∈ sPaste.ccRows :=
  ⟨(paste_in_place_amended sPaste 0 ⟨[[9, 9]], [(0, 1, 0)]⟩ rfl).1,
   (paste_in_place_amended sPaste 0 ⟨[[9, 9]], [(0, 1, 0)]⟩ rfl).2.2⟩

end Engine

namespace Engine

variable {R : Type} [Inhabited R]

lemma sublist_stInsert {α : Type} (cmp : α → α → Ordering) (x : α) (l : List α) :
    List.Sublist l (stInsert cmp x l) := by
  induction l with
  | nil => simp [stInsert]
  | cons y ys ih =>
    rw [stInsert]
    split
    · exact List.Sublist.cons₂ y ih
    · exact List.sublist_cons_self x (y :: ys)

lemma mem_stableSortBy {α : Type} (cmp : α → α → Ordering) (b : α) (l : List α)
    (hb : b ∈ l) : b ∈ stableSortBy cmp l := by
  induction l with
  | nil => cases hb
  | cons x xs ih =>
    rw [stableSortBy]
    rcases List.mem_cons.mp hb with hbx | hbx
    · subst hbx
      induction stableSortBy cmp xs with
      | nil => simp [stInsert]
      | cons y ys ih2 =>
        rw [stInsert]
        split
        · exact List.mem_cons_of_mem y ih2
        · exact List.mem_cons_self b _
    · exact (sublist_stInsert cmp x (stableSortBy cmp xs)).subset (ih hbx)

lemma stInsert_before {α : Type} (cmp : α → α → Ordering) (a b : α) (l : List α)
    (hb : b ∈ l) (hab : cmp a b ≠ .gt) : List.Sublist [a, b] (stInsert cmp a l) := by
  induction l with
  | nil => cases hb
  | cons y ys ih =>
    rw [stInsert]
    split
    · rcases List.mem_cons.mp hb with hby | hby
      · exact absurd (hby ▸ ‹cmp a y = .gt›) hab
      · exact (ih hby).cons y
    · exact List.Sublist.cons₂ a (List.singleton_sublist.mpr hb)

/-- One `sort_by` pass is stable: a pair in order whose elements do not
compare strictly greater stays in order. -/
lemma stableSortBy_pair {α : Type} (cmp : α → α → Ordering) (a b : α) (l : List α)
    (h : List.Sublist [a, b] l) (hab : cmp a b ≠ .gt) : List.Sublist [a, b] (stableSortBy cmp l) := by
  induction l with
  | nil => simp at h
  | cons x xs ih =>
    rw [stableSortBy]
    cases h with
    | cons _ htail =>
      exact (ih htail).trans (sublist_stInsert cmp x (stableSortBy cmp xs))
    | cons₂ _ htail =>
      exact stInsert_before cmp a b (stableSortBy cmp xs)
        (mem_stableSortBy cmp b xs (List.singleton_sublist.mp htail)) hab

lemma ccSortRows_pair_aux (v : Viewer R) (rows : List R) (a b : Nat) :
    ∀ (ks : List (Nat × Bool)) (l : List Nat), List.Sublist [a, b] l →
      (∀ key ∈ ks,
        v.compareCell (rows.getD a default) (rows.getD b default) key.1 = .eq) →
      List.Sublist [a, b]
        (ks.foldl (fun acc key => stableSortBy (passCmp v rows key) acc) l)
  | [], _, h, _ => h
  | k :: ks, l, h, heq => by
    rw [List.foldl_cons]
    refine ccSortRows_pair_aux v rows a b ks _ (stableSortBy_pair _ a b l h ?_) ?_
    · unfold passCmp
      rw [heq k (List.mem_cons_self k ks)]
      cases k.2 <;> simp [Ordering.swap]
    · intro key hk
      exact heq key (List.mem_cons_of_mem k hk)

lemma ccSortRows_pair (v : Viewer R) (rows : List R) (keys : List (Nat × Bool))
    (l : List Nat) (a b : Nat) (h : List.Sublist [a, b] l)
    (heq : ∀ key ∈ keys,
      v.compareCell (rows.getD a default) (rows.getD b default) key.1 = .eq) :
    List.Sublist [a, b] (ccSortRows v rows keys l) := by
  unfold ccSortRows
  refine ccSortRows_pair_aux v rows a b keys.reverse l h ?_
  intro key hk
  exact heq key (List.mem_reverse.mp hk)

lemma handleDesiredSelection_ccRows (s : UiState R) :
    (handleDesiredSelection s).1.ccRows = s.ccRows := by
  unfold handleDesiredSelection
  cases s.ccDesiredSelection <;> cases s.cursor <;> rfl

lemma validateCC_ccRows (v : Viewer R) (s : UiState R) (hd : s.ccDirty = true) :
    (validateCC v s).ccRows = ccSortRows v s.rows s.sort (filterRowIdxs v s.rows) := by
  have hvic : ∀ (t : UiState R) (n : Nat), (validateInteractiveCell t n).ccRows = t.ccRows :=
    fun _ _ => rfl
  unfold validateCC
  rw [if_neg (by simp [hd])]
  simp only [hvic]
  split
  · rw [handleDesiredSelection_ccRows]
  · split <;> rw [handleDesiredSelection_ccRows]

/-- C3: revalidation of a dirty cache sorts the filtered row list with one
stable pass per key from the last key to the first; with zero keys the
filter order is kept verbatim, and any two rows whose cells compare equal on
every sort key keep their relative filter order. -/
theorem revalidation_sort_stable (v : Viewer R) (s : UiState R) (a b : Nat)
    (hd : s.ccDirty = true) :
    (s.sort = [] → (validateCC v s).ccRows = filterRowIdxs v s.rows) ∧
    (List.Sublist [a, b] (filterRowIdxs v s.rows) →
      (∀ key ∈ s.sort,
        v.compareCell (s.rows.getD a default) (s.rows.getD b default) key.1 = .eq) →
      List.Sublist [a, b] ((validateCC v s).ccRows)) := by
  constructor
  · intro hs
    rw [validateCC_ccRows v s hd, hs]
    rfl
  · intro hsub heq
    rw [validateCC_ccRows v s hd]
    exact ccSortRows_pair v s.rows s.sort (filterRowIdxs v s.rows) a b hsub heq

theorem revalidation_sort_stable_witness :
    List.Sublist [0, 1] ((validateCC viewerN sC3).ccRows) ∧
    (validateCC viewerN sC3b).ccRows = filterRowIdxs viewerN sC3b.rows :=
  ⟨(revalidation_sort_stable viewerN sC3 0 1 (by decide)).2 (by decide) (by decide),
   (revalidation_sort_stable viewerN sC3b 0 1 (by decide)).1 (by decide)⟩

end Engine

namespace Engine

variable {R : Type} [Inhabited R]

lemma filterRowIdxs_nil (v : Viewer R) (rows : List R)
    (h : ∀ r ∈ rows, v.filterRow r = false) : filterRowIdxs v rows = [] := by
  unfold filterRowIdxs
  rw [List.filter_eq_nil_iff]
  intro i hi
  have hlt : i < rows.length := List.mem_range.mp hi
  rw [List.getD_eq_getElem _ _ hlt, h _ (List.getElem_mem hlt)]
  exact Bool.false_ne_true

lemma ccSortRows_nil (v : Viewer R) (rows : List R) (sort : List (Nat × Bool)) :
    ccSortRows v rows sort [] = [] := by
  unfold ccSortRows
  generalize sort.reverse = ks
  induction ks with
  | nil => rfl
  | cons k ks ih => exact ih

/-- C8 (amended): revalidating a dirty cache with no queued desired
selection against a row store whose filtered set is empty leaves an empty
visible-row cache and an empty committed selection, and clamps the
interactive cell to visible row 0 with its column clamped to the last
visible column - the column is NOT forced to 0 (see the counterexample). -/
theorem empty_filter_amended (v : Viewer R) (s : UiState R)
    (hd : s.ccDirty = true) (hdes : s.ccDesiredSelection = none)
    (hfil : ∀ r ∈ s.rows, v.filterRow r = false) :
    (validateCC v s).ccRows = [] ∧
    (validateCC v s).cursor = .select [] ∧
    (validateCC v s).ccInteractiveCell =
      min (Vis.rowCol s.visCols.length s.ccInteractiveCell).2 (s.visCols.length - 1) := by
  have hnil : filterRowIdxs v s.rows = [] := filterRowIdxs_nil v s.rows hfil
  have hrows : ccSortRows v s.rows s.sort (filterRowIdxs v s.rows) = [] := by
    rw [hnil]
    exact ccSortRows_nil v s.rows s.sort
  unfold validateCC
  rw [if_neg (by simp [hd])]
  simp only [validateInteractiveCell, handleDesiredSelection, hdes, hrows]
  cases hcur : s.cursor with
  | select sels =>
    simp [hcur, Vis.rowCol, Vis.linearIndex, Nat.min_zero, Nat.zero_mul, Nat.zero_add,
      List.filterMap_eq_nil_iff, List.length_nil, Nat.zero_le, Nat.le_zero]
  | edit nf lf row ed =>
    simp [hcur, Vis.rowCol, Vis.linearIndex, Nat.min_zero, Nat.zero_mul, Nat.zero_add]

/-- C8 counterexample to the unamended claim: an empty filtered set with two
visible columns and the interactive cell at column 1 yields interactive cell
(0, 1) - linear index 1 - not (0, 0). -/
theorem empty_filter_claim_counterexample :
    (∀ r ∈ sC8.rows, viewerNone.filterRow r = false) ∧
    (validateCC viewerNone sC8).ccRows = [] ∧
    (validateCC viewerNone sC8).cursor = .select [] ∧
    (validateCC viewerNone sC8).ccInteractiveCell = 1 := by decide

theorem empty_filter_amended_witness :
    (validateCC viewerNone sC8).ccRows = [] ∧
    (validateCC viewerNone sC8).cursor = .select [] ∧
    (validateCC viewerNone sC8).ccInteractiveCell =
      min (Vis.rowCol sC8.visCols.length sC8.ccInteractiveCell).2
        (sC8.visCols.length - 1) :=
  empty_filter_amended viewerNone sC8 (by decide) (by decide) (by decide)

end Engine

namespace Engine

variable {R : Type} [Inhabited R]

lemma getD_set_self {α : Type} (l : List α) (r : Nat) (a d : α) (h : r < l.length) :
    (l.set r a).getD r d = a := by
  induction l generalizing r with
  | nil => simp at h
  | cons x xs ih =>
    cases r with
    | zero => rfl
    | succ r => exact ih r (by simpa using h)

lemma getD_set_ne {α : Type} (l : List α) (r j : Nat) (a d : α) (h : j ≠ r) :
    (l.set r a).getD j d = l.getD j d := by
  induction l generalizing r j with
  | nil => rfl
  | cons x xs ih =>
    cases r with
    | zero =>
      cases j with
      | zero => exact absurd rfl h
      | succ j => rfl
    | succ r =>
      cases j with
      | zero => rfl
      | succ j => exact ih r j (fun hc => h (by rw [hc]))

lemma set_set_getD {α : Type} (l : List α) (r : Nat) (a d : α) :
    (l.set r a).set r (l.getD r d) = l := by
  induction l generalizing r with
  | nil => rfl
  | cons x xs ih =>
    cases r with
    | zero => rfl
    | succ r =>
      show x :: (xs.set r a).set r (xs.getD r d) = x :: xs
      rw [ih]

lemma removeIdxsFrom_nil_idxs (i : Nat) (xs : List R) : removeIdxsFrom i xs [] = xs := by
  induction xs generalizing i with
  | nil => rfl
  | cons x xs ih =>
    rw [removeIdxsFrom]
    simp [ih]

lemma removeIdxsFrom_append (i : Nat) (xs ys : List R) (idxs : List Nat) :
    removeIdxsFrom i (xs ++ ys) idxs =
      removeIdxsFrom i xs idxs ++ removeIdxsFrom (i + xs.length) ys idxs := by
  induction xs generalizing i with
  | nil => simp [removeIdxsFrom]
  | cons x xs ih =>
    have harith : i + 1 + xs.length = i + (x :: xs).length := by
      simp only [List.length_cons]
      omega
    rw [List.cons_append, removeIdxsFrom, removeIdxsFrom]
    by_cases h : i ∈ idxs
    · rw [if_pos h, if_pos h, ih, harith]
    · rw [if_neg h, if_neg h, List.cons_append, ih, harith]

lemma removeIdxsFrom_none (i : Nat) (xs : List R) (idxs : List Nat)
    (h : ∀ j, i ≤ j → j < i + xs.length → j ∉ idxs) :
    removeIdxsFrom i xs idxs = xs := by
  induction xs generalizing i with
  | nil => rfl
  | cons x xs ih =>
    rw [removeIdxsFrom,
      if_neg (h i (Nat.le_refl i) (by simp only [List.length_cons]; omega)),
      ih (i + 1) (fun j h1 h2 => h j (by omega) (by simp only [List.length_cons]; omega))]

lemma removeIdxsFrom_all (i : Nat) (xs : List R) (idxs : List Nat)
    (h : ∀ j, i ≤ j → j < i + xs.length → j ∈ idxs) :
    removeIdxsFrom i xs idxs = [] := by
  induction xs generalizing i with
  | nil => rfl
  | cons x xs ih =>
    rw [removeIdxsFrom,
      if_pos (h i (Nat.le_refl i) (by simp only [List.length_cons]; omega))]
    exact ih (i + 1) (fun j h1 h2 => h j (by omega) (by simp only [List.length_cons]; omega))

lemma removeIdxsFrom_congr (i : Nat) (xs : List R) (idxs idxs' : List Nat)
    (h : ∀ j, i ≤ j → (j ∈ idxs ↔ j ∈ idxs')) :
    removeIdxsFrom i xs idxs = removeIdxsFrom i xs idxs' := by
  induction xs generalizing i with
  | nil => rfl
  | cons x xs ih =>
    rw [removeIdxsFrom, removeIdxsFrom]
    have hi := h i (Nat.le_refl i)
    by_cases hm : i ∈ idxs
    · rw [if_pos hm, if_pos (hi.mp hm)]
      exact ih (i + 1) (fun j h1 => h j (by omega))
    · rw [if_neg hm, if_neg (fun hc => hm (hi.mpr hc)),
        ih (i + 1) (fun j h1 => h j (by omega))]

lemma map_getD_range' (l : List R) (d : R) (c m : Nat) (h : c + m ≤ l.length) :
    (List.range' c m).map (fun i => l.getD i d) = (l.drop c).take m := by
  induction m generalizing c with
  | zero => simp
  | succ m ih =>
    have hc : c < l.length := by omega
    rw [List.range'_succ, List.map_cons, ih (c + 1) (by omega),
      List.getD_eq_getElem _ _ hc, List.drop_eq_getElem_cons hc]
    rfl

end Engine

namespace Engine

variable {R : Type} [Inhabited R]

lemma chunksAux_join (rest : List Nat) : ∀ (c : Nat) (run : List Nat),
    (chunksAux c run rest).flatten = run ++ rest := by
  induction rest with
  | nil =>
    intro c run
    simp [chunksAux]
  | cons b rest ih =>
    intro c run
    rw [chunksAux]
    split
    · rw [ih]
      simp
    · rw [List.flatten_cons, ih]
      simp

lemma chunksOf_join (idxs : List Nat) : (chunksOf idxs).flatten = idxs := by
  cases idxs with
  | nil => rfl
  | cons x xs =>
    show (chunksAux x [x] xs).flatten = x :: xs
    rw [chunksAux_join]
    rfl

/-- Validity of a chunk decomposition: chunks are nonempty consecutive runs,
pairwise ascending, stationed in `[off, n)`. -/
def chunksValidFrom (n : Nat) : Nat → List (List Nat) → Prop
  | _, [] => True
  | off, chunk :: rest =>
      ∃ c m, off ≤ c ∧ 0 < m ∧ c + m ≤ n ∧ chunk = List.range' c m ∧
        chunksValidFrom n (c + m) rest

lemma chunksValidFrom_mono (n off off' : Nat) (cs : List (List Nat))
    (h : off' ≤ off) (hv : chunksValidFrom n off cs) : chunksValidFrom n off' cs := by
  cases cs with
  | nil => trivial
  | cons chunk rest =>
    obtain ⟨c, m, h1, h2, h3, h4, h5⟩ := hv
    exact ⟨c, m, by omega, h2, h3, h4, h5⟩

lemma chunksAux_valid (n : Nat) : ∀ (rest : List Nat) (r c : Nat), r ≤ c → c < n →
    List.Chain' (fun a b => a < b) (c :: rest) → (∀ j ∈ rest, j < n) →
    chunksValidFrom n r (chunksAux c (List.range' r (c + 1 - r)) rest) := by
  intro rest
  induction rest with
  | nil =>
    intro r c hrc hcn _ _
    exact ⟨r, c + 1 - r, Nat.le_refl r, by omega, by omega, rfl, trivial⟩
  | cons b rest ih =>
    intro r c hrc hcn hch hb
    have hcb : c < b := (List.chain'_cons.mp hch).1
    have hch' : List.Chain' (fun a b => a < b) (b :: rest) := (List.chain'_cons.mp hch).2
    have hbn : b < n := hb b (List.mem_cons_self b rest)
    have hb' : ∀ j ∈ rest, j < n := fun j hj => hb j (List.mem_cons_of_mem b hj)
    rw [chunksAux]
    by_cases hcb1 : c + 1 = b
    · rw [if_pos hcb1]
      have hconc : List.range' r (c + 1 - r) ++ [b] = List.range' r (b + 1 - r) := by
        have h1 : b + 1 - r = (c + 1 - r) + 1 := by omega
        have h2 : r + 1 * (c + 1 - r) = b := by omega
        rw [h1, List.range'_concat, h2]
      rw [hconc]
      exact ih r b (by omega) hbn hch' hb'
    · rw [if_neg hcb1]
      refine ⟨r, c + 1 - r, Nat.le_refl r, by omega, by omega, rfl, ?_⟩
      have h3 : r + (c + 1 - r) = c + 1 := by omega
      rw [h3]
      have h4 : List.range' b (b + 1 - b) = [b] := by
        have h5 : b + 1 - b = 1 := by omega
        rw [h5]
        rfl
      have hvb := ih b b (Nat.le_refl b) hbn hch' hb'
      rw [h4] at hvb
      exact chunksValidFrom_mono n b (c + 1) _ (by omega) hvb

lemma chunksOf_valid (n : Nat) (idxs : List Nat)
    (hs : List.Chain' (fun a b => a < b) idxs) (hb : ∀ j ∈ idxs, j < n) :
    chunksValidFrom n 0 (chunksOf idxs) := by
  cases idxs with
  | nil => trivial
  | cons x xs =>
    have hx : List.range' x (x + 1 - x) = [x] := by
      have h1 : x + 1 - x = 1 := by omega
      rw [h1]
      rfl
    have hv := chunksAux_valid n xs x x (Nat.le_refl x) (hb x (List.mem_cons_self x xs)) hs
      (fun j hj => hb j (List.mem_cons_of_mem x hj))
    rw [hx] at hv
    exact chunksValidFrom_mono n x 0 _ (Nat.zero_le x) hv

lemma chunksValidFrom_flatten_bound (n : Nat) : ∀ (cs : List (List Nat)) (off : Nat),
    chunksValidFrom n off cs → ∀ j ∈ cs.flatten, off ≤ j ∧ j < n := by
  intro cs
  induction cs with
  | nil =>
    intro off _ j hj
    simp at hj
  | cons chunk rest ih =>
    intro off hv j hj
    obtain ⟨c, m, h1, h2, h3, h4, h5⟩ := hv
    rw [List.flatten_cons, List.mem_append] at hj
    rcases hj with hj | hj
    · rw [h4] at hj
      have hr := List.mem_range'_1.mp hj
      exact ⟨by omega, by omega⟩
    · have := ih (c + m) h5 j hj
      exact ⟨by omega, this.2⟩

end Engine

namespace Engine

variable {R : Type} [Inhabited R]

lemma foldl_set_length {α : Type} (f : Nat × Nat × Nat → List α → α) :
    ∀ (values : List (Nat × Nat × Nat)) (l : List α),
      (values.foldl (fun rs t => rs.set t.1 (f t rs)) l).length = l.length
  | [], _ => rfl
  | t :: ts, l => by
    rw [List.foldl_cons, foldl_set_length f ts, List.length_set]

lemma foldl_set_untouched {α : Type} (f : Nat × Nat × Nat → List α → α) (j : Nat) (d : α) :
    ∀ (values : List (Nat × Nat × Nat)) (l : List α),
      j ∉ values.map (fun t => t.1) →
      (values.foldl (fun rs t => rs.set t.1 (f t rs)) l).getD j d = l.getD j d
  | [], _, _ => rfl
  | t :: ts, l, hj => by
    have h1 : j ≠ t.1 := fun hc => hj (by rw [List.map_cons, hc]; exact List.mem_cons_self _ _)
    have h2 : j ∉ ts.map (fun t => t.1) :=
      fun hc => hj (by rw [List.map_cons]; exact List.mem_cons_of_mem _ hc)
    rw [List.foldl_cons, foldl_set_untouched f j d ts _ h2, getD_set_ne _ _ _ _ _ h1]

lemma foldl_restore_eq {α : Type} (l : List α) (d : α) :
    ∀ (rs : List Nat) (m : List α), m.length = l.length →
      (∀ j, j < l.length → j ∉ rs → m.getD j d = l.getD j d) →
      rs.foldl (fun acc r => acc.set r (l.getD r d)) m = l
  | [], m, hlen, hagree => by
    apply List.ext_getElem hlen
    intro i h1 h2
    have hg := hagree i h2 (List.not_mem_nil i)
    rwa [List.getD_eq_getElem _ _ h1, List.getD_eq_getElem _ _ h2] at hg
  | r :: rs, m, hlen, hagree => by
    rw [List.foldl_cons]
    refine foldl_restore_eq l d rs (m.set r (l.getD r d)) (by rw [List.length_set, hlen]) ?_
    intro j hj hnj
    by_cases hjr : j = r
    · subst hjr
      have hjm : j < m.length := by omega
      rw [getD_set_self _ _ _ _ hjm]
    · rw [getD_set_ne _ _ _ _ _ hjr]
      exact hagree j hj
        (fun hc => (List.mem_cons.mp hc).elim (fun h => hjr h) (fun h => hnj h))

lemma mem_dedupConsec (j : Nat) : ∀ l : List Nat, j ∈ dedupConsec l ↔ j ∈ l
  | [] => Iff.rfl
  | [_] => Iff.rfl
  | x :: y :: rest => by
    by_cases hxy : x = y
    · rw [dedupConsec, if_pos hxy, mem_dedupConsec j (y :: rest)]
      subst hxy
      simp [List.mem_cons]
    · rw [dedupConsec, if_neg hxy, List.mem_cons, mem_dedupConsec j (y :: rest)]
      simp [List.mem_cons]

lemma insert_chunks_eq (base : List R) : ∀ (cs : List (List Nat)) (pre suf : List R),
    pre ++ suf = base → chunksValidFrom base.length pre.length cs →
    cs.foldl (fun acc chunk =>
        insertRowsAt (chunk.headD 0) (chunk.map (fun i => base.getD i default)) acc)
      (pre ++ removeIdxsFrom pre.length suf cs.flatten) = base
  | [], pre, suf, hb, _ => by
    rw [List.foldl_nil, List.flatten_nil, removeIdxsFrom_nil_idxs, hb]
  | chunk :: rest, pre, suf, hb, hv => by
    obtain ⟨c, m, h1, h2, h3, h4, h5⟩ := hv
    have hsuf : pre.length + suf.length = base.length := by
      rw [← hb, List.length_append]
    obtain ⟨A, B, C, hsufeq, hlA, hlB⟩ :
        ∃ A B C : List R, suf = A ++ (B ++ C) ∧ A.length = c - pre.length ∧
          B.length = m := by
      refine ⟨suf.take (c - pre.length), (suf.drop (c - pre.length)).take m,
        (suf.drop (c - pre.length)).drop m, ?_, ?_, ?_⟩
      · rw [List.take_append_drop m (suf.drop (c - pre.length)),
          List.take_append_drop]
      · rw [List.length_take]
        exact Nat.min_eq_left (by omega)
      · rw [List.length_take, List.length_drop]
        exact Nat.min_eq_left (by omega)
    have hA1 : ∀ j, pre.length ≤ j → j < pre.length + A.length →
        j ∉ chunk ++ rest.flatten := by
      intro j hj1 hj2 hmem
      rw [List.mem_append] at hmem
      rcases hmem with hm | hm
      · rw [h4] at hm
        have hr := List.mem_range'_1.mp hm
        omega
      · have hbnd := chunksValidFrom_flatten_bound base.length rest (c + m) h5 j hm
        omega
    have hA2 : ∀ j, c ≤ j → j < c + B.length → j ∈ chunk ++ rest.flatten := by
      intro j hj1 hj2
      rw [List.mem_append, h4]
      exact Or.inl (List.mem_range'_1.mpr ⟨hj1, by omega⟩)
    have hA3 : ∀ j, c + m ≤ j → (j ∈ chunk ++ rest.flatten ↔ j ∈ rest.flatten) := by
      intro j hj
      rw [List.mem_append]
      constructor
      · rintro (hm | hm)
        · rw [h4] at hm
          have := List.mem_range'_1.mp hm
          omega
        · exact hm
      · exact Or.inr
    have e1 : pre.length + A.length = c := by omega
    have e2 : c + B.length = c + m := by rw [hlB]
    have hrem : removeIdxsFrom pre.length suf (chunk :: rest).flatten
        = A ++ removeIdxsFrom (c + m) C rest.flatten := by
      rw [List.flatten_cons, hsufeq, removeIdxsFrom_append, removeIdxsFrom_append,
        e1, e2, removeIdxsFrom_none _ _ _ hA1, removeIdxsFrom_all _ _ _ hA2,
        removeIdxsFrom_congr _ _ _ _ hA3, List.nil_append]
    have hplen : (pre ++ A).length = c := by
      rw [List.length_append]
      omega
    have hhead : chunk.headD 0 = c := by
      rw [h4]
      cases m with
      | zero => omega
      | succ m' => rfl
    have hBbase : (base.drop c).take m = B := by
      have hb' : (pre ++ A) ++ (B ++ C) = base := by
        rw [List.append_assoc, ← hsufeq, hb]
      rw [← hb', List.drop_left' hplen, List.take_left' hlB]
    have hvals : chunk.map (fun i => base.getD i default) = B := by
      rw [h4, map_getD_range' base default c m h3, hBbase]
    have hins : insertRowsAt c B ((pre ++ A) ++ removeIdxsFrom (c + m) C rest.flatten)
        = (pre ++ A ++ B) ++ removeIdxsFrom (c + m) C rest.flatten := by
      unfold insertRowsAt
      rw [List.take_left' hplen, List.drop_left' hplen]
    have happ : (pre ++ A ++ B) ++ C = base := by
      rw [List.append_assoc, List.append_assoc, ← hsufeq, hb]
    have hplen2 : (pre ++ A ++ B).length = c + m := by
      rw [List.length_append, List.length_append]
      omega
    rw [hrem, List.foldl_cons, hhead, hvals, ← List.append_assoc pre A, hins]
    have hmain := insert_chunks_eq base rest (pre ++ A ++ B) C happ
      (by rw [hplen2]; exact h5)
    rw [hplen2] at hmain
    exact hmain

end Engine

namespace Engine

variable {R : Type} [Inhabited R]

lemma applyHs_setRowValues (v : Viewer R) (base : List R) :
    ∀ (rs : List Nat) (h : List R × List Nat × List (Nat × Bool)),
      applyHs v h (rs.map (fun rowId => Cmd.setRowValue rowId (base.getD rowId default)))
        = (rs.foldl (fun acc r => acc.set r (base.getD r default)) h.1, h.2.1, h.2.2)
  | [], _ => rfl
  | r :: rs, h => by
    show applyHs v (applyH v h (Cmd.setRowValue r (base.getD r default)))
      (rs.map (fun rowId => Cmd.setRowValue rowId (base.getD rowId default))) = _
    rw [applyHs_setRowValues v base rs]
    rfl

lemma applyHs_insertRowsCmds (v : Viewer R) (base : List R) :
    ∀ (cs : List (List Nat)) (h : List R × List Nat × List (Nat × Bool)),
      applyHs v h (cs.map (fun chunk =>
          Cmd.insertRows (chunk.headD 0) (chunk.map (fun i => base.getD i default))))
        = (cs.foldl (fun acc chunk =>
            insertRowsAt (chunk.headD 0) (chunk.map (fun i => base.getD i default)) acc)
              h.1, h.2.1, h.2.2)
  | [], _ => rfl
  | chunk :: cs, h => by
    show applyHs v
      (applyH v h (Cmd.insertRows (chunk.headD 0) (chunk.map (fun i => base.getD i default))))
      (cs.map (fun chunk =>
        Cmd.insertRows (chunk.headD 0) (chunk.map (fun i => base.getD i default)))) = _
    rw [applyHs_insertRowsCmds v base cs]
    rfl

lemma removeIdxs_insertRowsAt (rows vals : List R) (p : Nat) (hp : p ≤ rows.length) :
    removeIdxs (insertRowsAt p vals rows) (List.range' p vals.length) = rows := by
  unfold removeIdxs insertRowsAt
  have hl : (rows.take p).length = p := by
    rw [List.length_take]
    exact Nat.min_eq_left hp
  rw [List.append_assoc, removeIdxsFrom_append, removeIdxsFrom_append, hl, Nat.zero_add,
    removeIdxsFrom_none 0 (rows.take p) _ (by
      intro j hj1 hj2 hmem
      have := List.mem_range'_1.mp hmem
      omega),
    removeIdxsFrom_all p vals _ (by
      intro j hj1 hj2
      exact List.mem_range'_1.mpr ⟨hj1, hj2⟩),
    removeIdxsFrom_none (p + vals.length) (rows.drop p) _ (by
      intro j hj1 hj2 hmem
      have := List.mem_range'_1.mp hmem
      omega),
    List.nil_append, List.take_append_drop]

/-- For each storable command accepted by `push_new_command`, the computed
restore list undoes the command's effect on the visible-data projection. -/
lemma restore_inverse (v : Viewer R) (s : UiState R) (c : Cmd R) (restore : List (Cmd R))
    (hcr : computeRestore s c = some restore) (hok : cmdOk s c = true) :
    applyHs v (applyH v (projH s) c) restore = projH s := by
  cases c with
  | setVisibleColumns cols =>
    rw [computeRestore] at hcr
    by_cases hv : s.visCols = cols
    · rw [if_pos hv] at hcr
      exact Option.noConfusion hcr
    · rw [if_neg hv] at hcr
      have he := Option.some.inj hcr
      subst he
      rfl
  | setColumnSort ns =>
    rw [computeRestore] at hcr
    by_cases hv : s.sort = ns
    · rw [if_pos hv] at hcr
      exact Option.noConfusion hcr
    · rw [if_neg hv] at hcr
      have he := Option.some.inj hcr
      subst he
      rfl
  | setRowValue rowId value =>
    rw [computeRestore] at hcr
    have he := Option.some.inj hcr
    subst he
    show ((s.rows.set rowId value).set rowId (s.rows.getD rowId default), s.visCols, s.sort)
      = projH s
    rw [set_set_getD]
    rfl
  | setCells slab values =>
    rw [computeRestore] at hcr
    have he := Option.some.inj hcr
    subst he
    rw [applyHs_setRowValues v s.rows (dedupConsec (values.map (fun t => t.1)))]
    have hX : (dedupConsec (values.map (fun t => t.1))).foldl
        (fun acc r => acc.set r (s.rows.getD r default))
        (applyH v (projH s) (Cmd.setCells slab values)).1 = s.rows := by
      refine foldl_restore_eq s.rows default _ _ ?_ ?_
      · exact foldl_set_length _ values s.rows
      · intro j hj hnj
        refine foldl_set_untouched _ j default values s.rows ?_
        intro hc
        exact hnj ((mem_dedupConsec j (values.map (fun t => t.1))).mpr hc)
    rw [hX]
    rfl
  | insertRows pivot vals =>
    rw [computeRestore] at hcr
    have he := Option.some.inj hcr
    subst he
    have hp : pivot ≤ s.rows.length := of_decide_eq_true hok
    show (removeIdxs (insertRowsAt pivot vals s.rows) (List.range' pivot vals.length),
      s.visCols, s.sort) = projH s
    rw [removeIdxs_insertRowsAt s.rows vals pivot hp]
    rfl
  | removeRow idxs =>
    rw [computeRestore] at hcr
    by_cases hne : idxs = []
    · rw [if_pos hne] at hcr
      exact Option.noConfusion hcr
    · rw [if_neg hne] at hcr
      have he := Option.some.inj hcr
      subst he
      have hok' := (Bool.and_eq_true _ _).mp hok
      have hch : List.Chain' (fun a b => a < b) idxs := of_decide_eq_true hok'.1
      have hbd : ∀ j ∈ idxs, j < s.rows.length := by
        intro j hj
        exact of_decide_eq_true (List.all_eq_true.mp hok'.2 j hj)
      rw [applyHs_insertRowsCmds v s.rows (chunksOf idxs)]
      have hmain := insert_chunks_eq s.rows (chunksOf idxs) [] s.rows rfl
        (chunksOf_valid s.rows.length idxs hch hbd)
      rw [chunksOf_join, List.nil_append] at hmain
      simp only [List.length_nil] at hmain
      show ((chunksOf idxs).foldl (fun acc chunk =>
          insertRowsAt (chunk.headD 0) (chunk.map (fun i => s.rows.getD i default)) acc)
          (removeIdxsFrom 0 s.rows idxs), s.visCols, s.sort) = projH s
      rw [hmain]
      rfl
  | ccHideColumn col => exact Option.noConfusion hcr
  | ccShowColumn what at_ => exact Option.noConfusion hcr
  | ccReorderColumn f t => exact Option.noConfusion hcr
  | ccSetSelection sel => exact Option.noConfusion hcr
  | ccSetCells slab values ctx => exact Option.noConfusion hcr
  | ccEditStart row col val => exact Option.noConfusion hcr
  | ccCancelEdit => exact Option.noConfusion hcr
  | ccCommitEdit => exact Option.noConfusion hcr
  | ccUpdateSystemClipboard txt => exact Option.noConfusion hcr

end Engine

namespace Engine

variable {R : Type} [Inhabited R]

lemma projH_cmdApply (v : Viewer R) (s : UiState R) (c : Cmd R) :
    projH (cmdApply v s c) = applyH v (projH s) c := by
  cases c <;> rfl

lemma projH_foldl (v : Viewer R) (cs : List (Cmd R)) :
    ∀ s : UiState R, projH (cs.foldl (cmdApply v) s) = applyHs v (projH s) cs := by
  induction cs with
  | nil => intro s; rfl
  | cons c cs ih =>
    intro s
    rw [List.foldl_cons, ih, projH_cmdApply]
    rfl

lemma cmdApply_queue (v : Viewer R) (s : UiState R) (c : Cmd R) :
    (cmdApply v s c).undoQueue = s.undoQueue ∧
    (cmdApply v s c).undoCursor = s.undoCursor := by
  cases c <;> exact ⟨rfl, rfl⟩

lemma foldl_cmdApply_queue (v : Viewer R) (cs : List (Cmd R)) :
    ∀ s : UiState R, (cs.foldl (cmdApply v) s).undoQueue = s.undoQueue ∧
      (cs.foldl (cmdApply v) s).undoCursor = s.undoCursor := by
  induction cs with
  | nil => intro s; exact ⟨rfl, rfl⟩
  | cons c cs ih =>
    intro s
    rw [List.foldl_cons]
    constructor
    · rw [(ih (cmdApply v s c)).1, (cmdApply_queue v s c).1]
    · rw [(ih (cmdApply v s c)).2, (cmdApply_queue v s c).2]

lemma upOK_take (v : Viewer R) :
    ∀ (q : List (UndoArg R)) (h : List R × List Nat × List (Nat × Bool)) (n : Nat),
      upOK v h q → upOK v h (q.take n)
  | [], _, n, hu => by rw [List.take_nil]; exact hu
  | _ :: _, _, 0, _ => trivial
  | e :: q, h, n + 1, hu => by
    rw [List.take_succ_cons]
    exact ⟨hu.1, upOK_take v q _ n hu.2⟩

lemma invar_init (v : Viewer R) (rows : List R) (n : Nat) : invar v (initState rows n) :=
  ⟨Nat.le_refl 0, trivial, trivial⟩

lemma invar_congr (v : Viewer R) (s s' : UiState R) (hq : s'.undoQueue = s.undoQueue)
    (hc : s'.undoCursor = s.undoCursor) (hh : projH s' = projH s) (hi : invar v s) :
    invar v s' := by
  unfold invar at hi ⊢
  rw [hq, hc, hh]
  exact hi

lemma pushStorable_fields (v : Viewer R) (cap : Nat) (s : UiState R) (c : Cmd R)
    (restore : List (Cmd R)) (hcr : computeRestore s c = some restore) :
    (pushStorable v cap s c).undoCursor = 0 ∧
    (pushStorable v cap s c).undoQueue =
      ⟨c, restore⟩ :: (s.undoQueue.drop s.undoCursor).take
        (min (cap - 1) (s.undoQueue.drop s.undoCursor).length) ∧
    projH (pushStorable v cap s c) = applyH v (projH s) c := by
  unfold pushStorable
  rw [hcr]
  refine ⟨?_, ?_, ?_⟩
  · show (cmdApply v _ c).undoCursor = 0
    rw [(cmdApply_queue v _ c).2]
  · show (⟨c, restore⟩ : UndoArg R) :: (cmdApply v _ c).undoQueue = _
    rw [(cmdApply_queue v _ c).1]
  · show projH (cmdApply v _ c) = _
    rw [projH_cmdApply]
    rfl

lemma invar_pushStorable (v : Viewer R) (cap : Nat) (s : UiState R) (c : Cmd R)
    (hinv : invar v s)
    (hrest : ∀ r, computeRestore s c = some r →
      applyHs v (applyH v (projH s) c) r = projH s) :
    invar v (pushStorable v cap s c) := by
  cases hcr : computeRestore s c with
  | none =>
    unfold pushStorable
    rw [hcr]
    exact hinv
  | some restore =>
    obtain ⟨hc0, hq, hH⟩ := pushStorable_fields v cap s c restore hcr
    have hinverse := hrest restore hcr
    refine ⟨?_, ?_, ?_⟩
    · rw [hc0]
      exact Nat.zero_le _
    · rw [hc0, hq, hH, List.drop_zero]
      refine ⟨?_, ?_⟩
      · rw [hinverse]
      · rw [hinverse]
        exact upOK_take v _ _ _ hinv.2.1
    · rw [hc0]
      simp only [List.take_zero, List.reverse_nil]
      trivial

lemma invar_commitEdit (v : Viewer R) (cap : Nat) (s : UiState R)
    (hinv : invar v s) : invar v (commitEdit v cap s) := by
  unfold commitEdit takeEdition
  cases hc : s.cursor with
  | select l => exact hinv
  | edit nf lf row ed =>
    refine invar_pushStorable v cap _ _ (invar_congr v s _ rfl rfl rfl hinv) ?_
    intro r hr
    exact restore_inverse v _ _ r hr rfl

lemma commit_if_invar (v : Viewer R) (cap : Nat) (s : UiState R) (b : Bool)
    (hinv : invar v s) : invar v (if b then commitEdit v cap s else s) := by
  cases b with
  | false => simpa using hinv
  | true => simpa using invar_commitEdit v cap s hinv

lemma commit_if_rows_length (v : Viewer R) (cap : Nat) (s : UiState R) (b : Bool) :
    (if b then commitEdit v cap s else s).rows.length = s.rows.length := by
  cases b with
  | false => simp
  | true =>
    simp only [if_true]
    unfold commitEdit takeEdition
    cases hc : s.cursor with
    | select l => rfl
    | edit nf lf row ed =>
      show (pushStorable v cap { s with cursor := .select [] } _).rows.length = _
      unfold pushStorable
      cases hcr : computeRestore { s with cursor := CursorState.select [] }
          (Cmd.setRowValue row ed) with
      | none => rfl
      | some r =>
        show ((({ s with cursor := CursorState.select [] }).rows.set row ed)).length
          = s.rows.length
        rw [List.length_set]

lemma cmdOk_length_congr (s s' : UiState R) (c : Cmd R)
    (hlen : s'.rows.length = s.rows.length) (hok : cmdOk s c = true) :
    cmdOk s' c = true := by
  cases c <;> simp_all [cmdOk]

end Engine

namespace Engine

variable {R : Type} [Inhabited R]

lemma invar_hide_helper (v : Viewer R) (cap : Nat) (t : UiState R) (col : Nat)
    (hinvt : invar v t) :
    invar v (if t.visCols.length = 1 then t
      else pushStorable v cap t
        (.setVisibleColumns (t.visCols.eraseIdx (t.visCols.findIdx (fun x => x = col))))) := by
  split
  · exact hinvt
  · exact invar_pushStorable v cap t _ hinvt (fun r hr => restore_inverse v t _ r hr rfl)

lemma invar_reorder_helper (v : Viewer R) (cap : Nat) (t : UiState R) (from_ to_ : Nat)
    (hinvt : invar v t) :
    invar v (if from_ = to_ ∨ t.visCols.length < to_ then t
      else pushStorable v cap t
        (.setVisibleColumns
          (if from_ < to_ then (t.visCols.insertIdx to_ (t.visCols.getD from_ 0)).eraseIdx from_
           else (t.visCols.eraseIdx from_).insertIdx to_ (t.visCols.getD from_ 0)))) := by
  split
  · exact hinvt
  · exact invar_pushStorable v cap t _ hinvt (fun r hr => restore_inverse v t _ r hr rfl)

lemma invar_setSelection_helper (v : Viewer R) (t : UiState R) (sel : List (Nat × Nat))
    (hinvt : invar v t) :
    invar v { (if sel ≠ [] then { t with ccInteractiveCell := (sel.headD (0, 0)).1 } else t)
              with cursor := .select sel } := by
  refine invar_congr v t _ ?_ ?_ ?_ hinvt
  · split <;> rfl
  · split <;> rfl
  · split <;> rfl

lemma invar_takeEdition (v : Viewer R) (t : UiState R) (hinvt : invar v t) :
    invar v (takeEdition t).2 := by
  unfold takeEdition
  cases hc : t.cursor with
  | select l => exact hinvt
  | edit nf lf row ed => exact invar_congr v t _ rfl rfl rfl hinvt

lemma invar_push (v : Viewer R) (cap : Nat) (s : UiState R) (c : Cmd R)
    (hok : cmdOk s c = true) (hinv : invar v s) : invar v (push v cap s c) := by
  unfold push
  cases c with
  | ccHideColumn col =>
    exact invar_hide_helper v cap _ col (commit_if_invar v cap s _ hinv)
  | ccShowColumn what at_ =>
    exact invar_pushStorable v cap _ _ (commit_if_invar v cap s _ hinv)
      (fun r hr => restore_inverse v _ _ r hr rfl)
  | ccReorderColumn from_ to_ =>
    exact invar_reorder_helper v cap _ from_ to_ (commit_if_invar v cap s _ hinv)
  | ccEditStart row col val =>
    exact invar_congr v _ _ rfl rfl rfl (commit_if_invar v cap s _ hinv)
  | ccCommitEdit =>
    exact invar_commitEdit v cap _ (commit_if_invar v cap s _ hinv)
  | ccCancelEdit =>
    exact invar_takeEdition v _ (commit_if_invar v cap s _ hinv)
  | ccSetSelection sel =>
    exact invar_setSelection_helper v _ sel (commit_if_invar v cap s _ hinv)
  | ccSetCells slab values ctx =>
    exact invar_pushStorable v cap _ _ (commit_if_invar v cap s _ hinv)
      (fun r hr => restore_inverse v _ _ r hr rfl)
  | ccUpdateSystemClipboard txt =>
    exact commit_if_invar v cap s _ hinv
  | setVisibleColumns cols =>
    exact invar_pushStorable v cap _ _ (commit_if_invar v cap s _ hinv)
      (fun r hr => restore_inverse v _ _ r hr rfl)
  | setColumnSort ns =>
    exact invar_pushStorable v cap _ _ (commit_if_invar v cap s _ hinv)
      (fun r hr => restore_inverse v _ _ r hr rfl)
  | setRowValue row val =>
    exact invar_pushStorable v cap _ _ (commit_if_invar v cap s _ hinv)
      (fun r hr => restore_inverse v _ _ r hr rfl)
  | setCells slab values =>
    exact invar_pushStorable v cap _ _ (commit_if_invar v cap s _ hinv)
      (fun r hr => restore_inverse v _ _ r hr rfl)
  | insertRows pivot vals =>
    refine invar_pushStorable v cap _ _ (commit_if_invar v cap s _ hinv) ?_
    intro r hr
    exact restore_inverse v _ _ r hr
      (cmdOk_length_congr s _ _ (commit_if_rows_length v cap s _) hok)
  | removeRow idxs =>
    refine invar_pushStorable v cap _ _ (commit_if_invar v cap s _ hinv) ?_
    intro r hr
    exact restore_inverse v _ _ r hr
      (cmdOk_length_congr s _ _ (commit_if_rows_length v cap s _) hok)

end Engine

namespace Engine

variable {R : Type} [Inhabited R]

lemma take_reverse_cons {α : Type} (q : List α) (k : Nat) (hk : k ≠ 0)
    (hlt : k - 1 < q.length) :
    (q.take k).reverse = q.get ⟨k - 1, hlt⟩ :: (q.take (k - 1)).reverse := by
  obtain ⟨j, hj⟩ : ∃ j, k = j + 1 := ⟨k - 1, by omega⟩
  subst hj
  simp only [Nat.add_sub_cancel] at hlt ⊢
  rw [List.take_succ, List.getElem?_eq_getElem hlt]
  simp [List.reverse_append, List.get_eq_getElem]

lemma invar_undo (v : Viewer R) (s : UiState R) (hinv : invar v s) :
    invar v (undo v s).1 := by
  unfold undo
  split
  · exact hinv
  · cases hq : s.undoQueue[s.undoCursor]? with
    | none => exact hinv
    | some e =>
      have hlt : s.undoCursor < s.undoQueue.length := by
        by_contra hge
        rw [List.getElem?_eq_none (by omega)] at hq
        exact Option.noConfusion hq
      have he : s.undoQueue[s.undoCursor] = e := by
        rw [List.getElem?_eq_getElem hlt] at hq
        exact Option.some.inj hq
      obtain ⟨hcle, hup, hdown⟩ := hinv
      have hqq := (foldl_cmdApply_queue v e.restore s).1
      have hdropq : s.undoQueue.drop s.undoCursor
          = e :: s.undoQueue.drop (s.undoCursor + 1) := by
        rw [List.drop_eq_getElem_cons hlt, he]
      rw [hdropq] at hup
      refine ⟨?_, ?_, ?_⟩
      · show s.undoCursor + 1 ≤ (e.restore.foldl (cmdApply v) s).undoQueue.length
        rw [hqq]
        omega
      · show upOK v (projH (e.restore.foldl (cmdApply v) s))
          ((e.restore.foldl (cmdApply v) s).undoQueue.drop (s.undoCursor + 1))
        rw [hqq, projH_foldl]
        exact hup.2
      · show downOK v (projH (e.restore.foldl (cmdApply v) s))
          (((e.restore.foldl (cmdApply v) s).undoQueue.take (s.undoCursor + 1)).reverse)
        rw [hqq, projH_foldl]
        have htake : (s.undoQueue.take (s.undoCursor + 1)).reverse
            = e :: (s.undoQueue.take s.undoCursor).reverse := by
          rw [take_reverse_cons s.undoQueue (s.undoCursor + 1) (by omega)
            (by simpa using hlt)]
          simp [List.get_eq_getElem, he]
        rw [htake]
        refine ⟨?_, ?_⟩
        · rw [hup.1]
        · rw [hup.1]
          exact hdown

lemma invar_redo (v : Viewer R) (s : UiState R) (hinv : invar v s) :
    invar v (redo v s).1 := by
  unfold redo
  by_cases h0 : s.undoCursor = 0
  · rw [if_pos h0]
    exact hinv
  · rw [if_neg h0]
    cases hq : s.undoQueue[s.undoCursor - 1]? with
    | none => exact hinv
    | some e =>
      have hlt : s.undoCursor - 1 < s.undoQueue.length := by
        by_contra hge
        rw [List.getElem?_eq_none (by omega)] at hq
        exact Option.noConfusion hq
      have he : s.undoQueue[s.undoCursor - 1] = e := by
        rw [List.getElem?_eq_getElem hlt] at hq
        exact Option.some.inj hq
      obtain ⟨hcle, hup, hdown⟩ := hinv
      have hqq := cmdApply_queue v { s with undoCursor := s.undoCursor - 1 } e.apply
      have htake : (s.undoQueue.take s.undoCursor).reverse
          = e :: (s.undoQueue.take (s.undoCursor - 1)).reverse := by
        rw [take_reverse_cons s.undoQueue s.undoCursor h0 hlt]
        simp [List.get_eq_getElem, he]
      rw [htake] at hdown
      have hdropq : s.undoQueue.drop (s.undoCursor - 1)
          = e :: s.undoQueue.drop s.undoCursor := by
        rw [List.drop_eq_getElem_cons hlt, he]
        have harith : s.undoCursor - 1 + 1 = s.undoCursor := by omega
        rw [harith]
      refine ⟨?_, ?_, ?_⟩
      · show (cmdApply v { s with undoCursor := s.undoCursor - 1 } e.apply).undoCursor
          ≤ (cmdApply v { s with undoCursor := s.undoCursor - 1 } e.apply).undoQueue.length
        rw [hqq.1, hqq.2]
        have hred : ({ s with undoCursor := s.undoCursor - 1 } : UiState R).undoCursor
            = s.undoCursor - 1 := rfl
        have hred2 : ({ s with undoCursor := s.undoCursor - 1 } : UiState R).undoQueue
            = s.undoQueue := rfl
        rw [hred, hred2]
        omega
      · show upOK v (projH (cmdApply v { s with undoCursor := s.undoCursor - 1 } e.apply))
          ((cmdApply v { s with undoCursor := s.undoCursor - 1 } e.apply).undoQueue.drop
            (cmdApply v { s with undoCursor := s.undoCursor - 1 } e.apply).undoCursor)
        rw [hqq.1, hqq.2, projH_cmdApply]
        show upOK v (applyH v (projH s) e.apply)
          (s.undoQueue.drop (s.undoCursor - 1))
        rw [hdropq]
        refine ⟨?_, ?_⟩
        · rw [hdown.1]
        · rw [hdown.1]
          exact hup
      · show downOK v (projH (cmdApply v { s with undoCursor := s.undoCursor - 1 } e.apply))
          (((cmdApply v { s with undoCursor := s.undoCursor - 1 } e.apply).undoQueue.take
            (cmdApply v { s with undoCursor := s.undoCursor - 1 } e.apply).undoCursor).reverse)
        rw [hqq.1, hqq.2, projH_cmdApply]
        exact hdown.2

lemma invar_step (v : Viewer R) (cap : Nat) (s : UiState R) (o : Op R)
    (hok : opOk s o = true) (hinv : invar v s) : invar v (stepOp v cap s o) := by
  cases o with
  | push c => exact invar_push v cap s c hok hinv
  | undo => exact invar_undo v s hinv
  | redo => exact invar_redo v s hinv

lemma invar_runOps (v : Viewer R) (cap : Nat) :
    ∀ (ops : List (Op R)) (s : UiState R),
      opsOk v cap s ops = true → invar v s → invar v (runOps v cap s ops)
  | [], _, _, hinv => hinv
  | o :: ops, s, hok, hinv => by
    rw [opsOk] at hok
    obtain ⟨h1, h2⟩ := (Bool.and_eq_true _ _).mp hok
    show invar v (runOps v cap (stepOp v cap s o) ops)
    exact invar_runOps v cap ops _ h2 (invar_step v cap s o h1 hinv)

end Engine

namespace Engine

/-- The driver sequence of the round-trip witness: two sort pushes and one
undo, leaving both an undoable and a redoable entry. -/
def opsW : List (Op Nat) :=
  [.push (.setColumnSort [(0, true)]), .push (.setColumnSort [(1, false)]), .undo]

end Engine

namespace Engine

variable {R : Type} [Inhabited R]

lemma visState_eq (x y : UiState R) (h1 : projH x = projH y) (h2 : x.cursor = y.cursor) :
    visState x = visState y := by
  unfold projH at h1
  unfold visState
  have hr : x.rows = y.rows := congrArg (fun p => p.1) h1
  have hv : x.visCols = y.visCols := congrArg (fun p => p.2.1) h1
  have hs : x.sort = y.sort := congrArg (fun p => p.2.2) h1
  rw [h2, hr, hv, hs]

lemma roundtrip_of_invar (v : Viewer R) (s : UiState R) (hinv : invar v s) :
    ((undo v s).2 = true →
      (redo v (undo v s).1).2 = true ∧ visState ((redo v (undo v s).1).1) = visState s) ∧
    ((redo v s).2 = true →
      (undo v (redo v s).1).2 = true ∧ visState ((undo v (redo v s).1).1) = visState s) := by
  constructor
  · intro hu
    by_cases hend : s.undoCursor = s.undoQueue.length
    · unfold undo at hu
      rw [if_pos hend] at hu
      exact absurd hu (by simp)
    · have hlt : s.undoCursor < s.undoQueue.length := by
        have := hinv.1
        omega
      have hq : s.undoQueue[s.undoCursor]? = some (s.undoQueue[s.undoCursor]) :=
        List.getElem?_eq_getElem hlt
      set e := s.undoQueue[s.undoCursor] with he
      have hundo : undo v s =
          ({ e.restore.foldl (cmdApply v) s with undoCursor := s.undoCursor + 1 }, true) := by
        unfold undo
        rw [if_neg hend, hq]
      rw [hundo]
      have hq1 : ({ e.restore.foldl (cmdApply v) s with
          undoCursor := s.undoCursor + 1 } : UiState R).undoQueue = s.undoQueue :=
        (foldl_cmdApply_queue v e.restore s).1
      have hredo : redo v ({ e.restore.foldl (cmdApply v) s with
            undoCursor := s.undoCursor + 1 } : UiState R) =
          (cmdApply v { ({ e.restore.foldl (cmdApply v) s with
              undoCursor := s.undoCursor + 1 } : UiState R) with
            undoCursor := s.undoCursor } e.apply, true) := by
        unfold redo
        rw [if_neg (by
          have : ({ e.restore.foldl (cmdApply v) s with
              undoCursor := s.undoCursor + 1 } : UiState R).undoCursor
            = s.undoCursor + 1 := rfl
          rw [this]
          omega)]
        have hq2 : ({ e.restore.foldl (cmdApply v) s with
            undoCursor := s.undoCursor + 1 } : UiState R).undoQueue[
              ({ e.restore.foldl (cmdApply v) s with
                undoCursor := s.undoCursor + 1 } : UiState R).undoCursor - 1]?
            = some e := by
          rw [hq1]
          show s.undoQueue[s.undoCursor + 1 - 1]? = some e
          rw [Nat.add_sub_cancel]
          exact hq
        rw [hq2]
        rfl
      rw [hredo]
      refine ⟨rfl, ?_⟩
      have hlink : applyH v (applyHs v (projH s) e.restore) e.apply = projH s := by
        have hup := hinv.2.1
        rw [List.drop_eq_getElem_cons hlt] at hup
        exact hup.1
      apply visState_eq
      · rw [projH_cmdApply]
        have hπ : projH ({ ({ e.restore.foldl (cmdApply v) s with
            undoCursor := s.undoCursor + 1 } : UiState R) with
              undoCursor := s.undoCursor } : UiState R)
            = applyHs v (projH s) e.restore := by
          show projH (e.restore.foldl (cmdApply v) s) = _
          exact projH_foldl v e.restore s
        rw [hπ]
        exact hlink
      · rw [cmdApply_cursor]
        show (e.restore.foldl (cmdApply v) s).cursor = s.cursor
        exact foldl_cmdApply_cursor v e.restore s
  · intro hr
    by_cases h0 : s.undoCursor = 0
    · unfold redo at hr
      rw [if_pos h0] at hr
      exact absurd hr (by simp)
    · have hlt : s.undoCursor - 1 < s.undoQueue.length := by
        have := hinv.1
        omega
      have hq : s.undoQueue[s.undoCursor - 1]? = some (s.undoQueue[s.undoCursor - 1]) :=
        List.getElem?_eq_getElem hlt
      set e := s.undoQueue[s.undoCursor - 1] with he
      have hredo : redo v s =
          (cmdApply v { s with undoCursor := s.undoCursor - 1 } e.apply, true) := by
        unfold redo
        rw [if_neg h0, hq]
      rw [hredo]
      have hq1 : (cmdApply v { s with undoCursor := s.undoCursor - 1 } e.apply).undoQueue
          = s.undoQueue := (cmdApply_queue v _ e.apply).1
      have hc1 : (cmdApply v { s with undoCursor := s.undoCursor - 1 } e.apply).undoCursor
          = s.undoCursor - 1 := (cmdApply_queue v _ e.apply).2
      have hlink : applyHs v (applyH v (projH s) e.apply) e.restore = projH s := by
        have hdown := hinv.2.2
        rw [take_reverse_cons s.undoQueue s.undoCursor h0 hlt] at hdown
        rw [List.get_eq_getElem] at hdown
        exact hdown.1
      have hundo : undo v (cmdApply v { s with undoCursor := s.undoCursor - 1 } e.apply) =
          ({ e.restore.foldl (cmdApply v)
              (cmdApply v { s with undoCursor := s.undoCursor - 1 } e.apply) with
            undoCursor :=
              (cmdApply v { s with undoCursor := s.undoCursor - 1 } e.apply).undoCursor
                + 1 }, true) := by
        unfold undo
        rw [if_neg (by rw [hq1, hc1]; omega)]
        have hq2 : (cmdApply v { s with undoCursor := s.undoCursor - 1 }
              e.apply).undoQueue[(cmdApply v { s with undoCursor := s.undoCursor - 1 }
              e.apply).undoCursor]? = some e := by
          rw [hq1, hc1]
          exact hq
        rw [hq2]
      rw [hundo]
      refine ⟨rfl, ?_⟩
      apply visState_eq
      · show projH (e.restore.foldl (cmdApply v)
            (cmdApply v { s with undoCursor := s.undoCursor - 1 } e.apply)) = projH s
        rw [projH_foldl, projH_cmdApply]
        show applyHs v (applyH v (projH s) e.apply) e.restore = projH s
        exact hlink
      · show (e.restore.foldl (cmdApply v)
            (cmdApply v { s with undoCursor := s.undoCursor - 1 } e.apply)).cursor = s.cursor
        rw [foldl_cmdApply_cursor, cmdApply_cursor]

/-- C1 (amended): starting from a fresh state and any valid driver sequence
(pushes of in-range commands, undos and redos), whenever `undo` succeeds the
following `redo` succeeds and restores the exact prior visible state (row
values, selection, visible columns, sort), and symmetrically whenever `redo`
succeeds the following `undo` restores the exact prior visible state.  (The
unamended claim fails at the history boundaries: after a FAILED `redo` - a
no-op returning false - the subsequent `undo` does change state, so the pair
does not round-trip; see the counterexample.) -/
theorem undo_redo_roundtrip_amended (v : Viewer R) (cap : Nat) (rows0 : List R)
    (ncol : Nat) (ops : List (Op R))
    (hok : opsOk v cap (initState rows0 ncol) ops = true) :
    ((undo v (runOps v cap (initState rows0 ncol) ops)).2 = true →
      (redo v (undo v (runOps v cap (initState rows0 ncol) ops)).1).2 = true ∧
      visState ((redo v (undo v (runOps v cap (initState rows0 ncol) ops)).1).1) =
        visState (runOps v cap (initState rows0 ncol) ops)) ∧
    ((redo v (runOps v cap (initState rows0 ncol) ops)).2 = true →
      (undo v (redo v (runOps v cap (initState rows0 ncol) ops)).1).2 = true ∧
      visState ((undo v (redo v (runOps v cap (initState rows0 ncol) ops)).1).1) =
        visState (runOps v cap (initState rows0 ncol) ops)) :=
  roundtrip_of_invar v _
    (invar_runOps v cap ops (initState rows0 ncol) hok (invar_init v rows0 ncol))

/-- C1 counterexample to the unamended claim: after one pushed command the
redo cursor is at the front, so `redo` fails (returns false, a no-op), but
the `undo` that follows it does change the visible state - the sort spec
reverts from the pushed value to the empty list - so the redo-then-undo pair
does not restore the prior visible state. -/
theorem undo_redo_roundtrip_claim_counterexample :
    ((redo viewerN (push viewerN 100 (initState [1] 1 : UiState Nat)
        (.setColumnSort [(0, true)]))).2 = false) ∧
    (push viewerN 100 (initState [1] 1 : UiState Nat)
        (.setColumnSort [(0, true)])).sort = [(0, true)] ∧
    ((undo viewerN (redo viewerN (push viewerN 100 (initState [1] 1 : UiState Nat)
        (.setColumnSort [(0, true)]))).1).1).sort = [] := by decide

theorem undo_redo_roundtrip_amended_witness :
    ((undo viewerN (runOps viewerN 100 (initState [1] 1) opsW)).2 = true) ∧
    ((redo viewerN (undo viewerN (runOps viewerN 100 (initState [1] 1) opsW)).1).2 = true ∧
      visState ((redo viewerN
          (undo viewerN (runOps viewerN 100 (initState [1] 1) opsW)).1).1) =
        visState (runOps viewerN 100 (initState [1] 1) opsW)) ∧
    ((redo viewerN (runOps viewerN 100 (initState [1] 1) opsW)).2 = true) ∧
    ((undo viewerN (redo viewerN (runOps viewerN 100 (initState [1] 1) opsW)).1).2 = true ∧
      visState ((undo viewerN
          (redo viewerN (runOps viewerN 100 (initState [1] 1) opsW)).1).1) =
        visState (runOps viewerN 100 (initState [1] 1) opsW)) := by
  have h := undo_redo_roundtrip_amended viewerN 100 [1] 1 opsW (by decide)
  exact ⟨by decide, h.1 (by decide), by decide, h.2 (by decide)⟩

end Engine
